import Mathlib

/-!
Verification of the SharedCalendar component
(src/zdielany_webovy_kalendar_react_single_file.jsx).

Modelling conventions for the shallow embedding:
* JavaScript strings are modelled as `List Char`.
* Instants (JS `Date` time values) are modelled as `Int` milliseconds since
  the Unix epoch; calendar days are modelled as `Int` days since the epoch.
* The host timezone is modelled as a fixed offset `tz` in milliseconds
  (local time = UTC + tz); daylight-saving transitions are out of scope.
* The in-memory event objects created by `saveEvent` are modelled by
  `SEvent`, where `start` holds the parsed instant (the code stores
  `start.toISOString()` and re-parses it with `new Date`, which is the
  identity on instants).
* Browser built-ins used by the code (`JSON.stringify`/`JSON.parse`,
  `encodeURIComponent`/`decodeURIComponent`, `btoa`/`atob`) are embedded as
  executable Lean functions implementing their ECMAScript behaviour on the
  values this program feeds them.
-/

namespace Kalendar

/-- JS string literal helper: a Lean string as a list of characters. -/
def toL (s : String) : List Char := s.toList

/-- An in-memory calendar event as built by `saveEvent`:
`id`, `title`, `description` are strings, `attendees` a list of strings,
`duration` a number (minutes), and `start` the instant obtained from
`new Date(form.date + "T" + form.time)` (stored as an ISO string and
re-parsed on use; modelled directly as the instant). -/
structure SEvent where
  id : List Char
  title : List Char
  start : Int
  duration : Int
  description : List Char
  attendees : List (List Char)
deriving DecidableEq

/-! ## The Gregorian calendar model

The code manipulates dates through the JS `Date` built-ins
(`new Date(y, m, d)`, `getFullYear`, `getMonth`, `getDate`, `getDay`,
`setDate`).  We model a `Date` at day resolution as the number of calendar
days since the Unix epoch (1970-01-01 = day 0) and embed the built-ins via
an executable proleptic-Gregorian conversion: `daysFromCivil` is the closed
form, `civilFromDays` recovers the civil triple by reducing into a 400-year
cycle and searching the year and month tables. -/

/-- A proleptic-Gregorian leap year. -/
def isLeap (y : Int) : Prop :=
  (y % 4 = 0 ∧ ¬ y % 100 = 0) ∨ y % 400 = 0

instance (y : Int) : Decidable (isLeap y) := by
  unfold isLeap
  infer_instance

/-- Days in year `y`. -/
def daysInYear (y : Int) : Int := if isLeap y then 366 else 365

/-- Days in month `m` (1-based) of year `y`. -/
def daysInMonth (y m : Int) : Int :=
  if m = 1 then 31
  else if m = 2 then (if isLeap y then 29 else 28)
  else if m = 3 then 31
  else if m = 4 then 30
  else if m = 5 then 31
  else if m = 6 then 30
  else if m = 7 then 31
  else if m = 8 then 31
  else if m = 9 then 30
  else if m = 10 then 31
  else if m = 11 then 30
  else if m = 12 then 31
  else 0

/-- Days in year `y` strictly before month `m` (1-based; `m = 13` gives the
whole year). -/
def monthDaysBefore (y m : Int) : Int :=
  let l : Int := if isLeap y then 1 else 0
  if m = 1 then 0
  else if m = 2 then 31
  else if m = 3 then 59 + l
  else if m = 4 then 90 + l
  else if m = 5 then 120 + l
  else if m = 6 then 151 + l
  else if m = 7 then 181 + l
  else if m = 8 then 212 + l
  else if m = 9 then 243 + l
  else if m = 10 then 273 + l
  else if m = 11 then 304 + l
  else if m = 12 then 334 + l
  else if m = 13 then 365 + l
  else 0

/-- A fixed linear-plus-leap-count offset: `daysBeforeYear y` grows by
`daysInYear y` from `y` to `y + 1`; differences measure whole years in days. -/
def daysBeforeYear (y : Int) : Int :=
  365 * y + (y - 1) / 4 - (y - 1) / 100 + (y - 1) / 400

/-- Day number (days since 1970-01-01) of the civil date `(y, m, d)`;
month is 1-based and `d` may be any integer (the formula is linear in `d`,
matching the day normalization of `new Date(y, m, d)` / `setDate`). -/
def daysFromCivil (y m d : Int) : Int :=
  daysBeforeYear y + monthDaysBefore y m + (d - 1) - 719527

theorem daysBeforeYear_step (y : Int) :
    daysBeforeYear (y + 1) = daysBeforeYear y + daysInYear y := by
  unfold daysBeforeYear daysInYear
  split_ifs with h
  · unfold isLeap at h
    omega
  · unfold isLeap at h
    omega

theorem daysBeforeYear_mono {a b : Int} (h : a ≤ b) :
    daysBeforeYear a + 365 * (b - a) ≤ daysBeforeYear b := by
  unfold daysBeforeYear
  omega

theorem daysBeforeYear_cycle (y : Int) :
    daysBeforeYear (y + 400) = daysBeforeYear y + 146097 := by
  unfold daysBeforeYear
  omega

theorem monthDaysBefore_step (y : Int) {m : Int} (h1 : 1 ≤ m) (h2 : m ≤ 12) :
    monthDaysBefore y (m + 1) = monthDaysBefore y m + daysInMonth y m := by
  by_cases hl : isLeap y <;> interval_cases m <;>
    simp [monthDaysBefore, daysInMonth, hl]

theorem monthDaysBefore_all (y : Int) :
    monthDaysBefore y 13 = daysInYear y := by
  by_cases hl : isLeap y <;> simp [monthDaysBefore, daysInYear, hl]

theorem daysInMonth_pos (y : Int) {m : Int} (h1 : 1 ≤ m) (h2 : m ≤ 12) :
    1 ≤ daysInMonth y m := by
  by_cases hl : isLeap y <;> interval_cases m <;> simp [daysInMonth, hl]

/-- Locate the year containing day offset `doe` by scanning forward from
year `y`. -/
def yearSearch : Nat → Int → Int → Int × Int
  | 0, y, doe => (y, doe)
  | fuel + 1, y, doe =>
    if doe < daysInYear y then (y, doe)
    else yearSearch fuel (y + 1) (doe - daysInYear y)

/-- Locate the month containing day-of-year offset `doy` by scanning
forward from month `m` of year `y`. -/
def monthSearch : Nat → Int → Int → Int → Int × Int
  | 0, _, m, doy => (m, doy)
  | fuel + 1, y, m, doy =>
    if doy < daysInMonth y m then (m, doy)
    else monthSearch fuel y (m + 1) (doy - daysInMonth y m)

/-- Civil date `(year, month, day)` (month 1-based) of a day number:
reduce into a 400-year cycle, then search the year and the month. -/
def civilFromDays (z : Int) : Int × Int × Int :=
  let zz := z + 719528
  let era := zz / 146097
  let doe := zz % 146097
  let p := yearSearch 400 (400 * era) doe
  let q := monthSearch 12 p.1 1 p.2
  (p.1, q.1, q.2 + 1)

/-- Total days in the `n` consecutive years starting at `y`. -/
def sumDaysYears (y : Int) : Nat → Int
  | 0 => 0
  | n + 1 => daysInYear y + sumDaysYears (y + 1) n

theorem sumDaysYears_eq (n : Nat) : ∀ y : Int,
    sumDaysYears y n = daysBeforeYear (y + n) - daysBeforeYear y := by
  induction n with
  | zero => intro y; simp [sumDaysYears]
  | succ k ih =>
    intro y
    have h1 := daysBeforeYear_step y
    have h2 := ih (y + 1)
    have harg : y + 1 + (k : Int) = y + ((k : Int) + 1) := by ring
    rw [harg] at h2
    simp only [sumDaysYears, h2]
    push_cast
    omega

theorem yearSearch_correct (fuel : Nat) : ∀ y doe : Int, 0 ≤ doe →
    doe < sumDaysYears y fuel →
    0 ≤ (yearSearch fuel y doe).2 ∧
    (yearSearch fuel y doe).2 < daysInYear (yearSearch fuel y doe).1 ∧
    daysBeforeYear (yearSearch fuel y doe).1 + (yearSearch fuel y doe).2 =
      daysBeforeYear y + doe := by
  induction fuel with
  | zero =>
    intro y doe h1 h2
    simp [sumDaysYears] at h2
    omega
  | succ k ih =>
    intro y doe h1 h2
    by_cases h : doe < daysInYear y
    · simp only [yearSearch, if_pos h]
      exact ⟨h1, h, trivial⟩
    · have h2' : doe - daysInYear y < sumDaysYears (y + 1) k := by
        simp only [sumDaysYears] at h2
        omega
      have hrec := ih (y + 1) (doe - daysInYear y) (by omega) h2'
      have hstep := daysBeforeYear_step y
      simp only [yearSearch, if_neg h]
      exact ⟨hrec.1, hrec.2.1, by omega⟩

theorem monthSearch_correct (fuel : Nat) : ∀ y m doy : Int, 1 ≤ m →
    m + fuel = 13 → 0 ≤ doy → monthDaysBefore y m + doy < daysInYear y →
    1 ≤ (monthSearch fuel y m doy).1 ∧ (monthSearch fuel y m doy).1 ≤ 12 ∧
    0 ≤ (monthSearch fuel y m doy).2 ∧
    (monthSearch fuel y m doy).2 <
      daysInMonth y (monthSearch fuel y m doy).1 ∧
    monthDaysBefore y (monthSearch fuel y m doy).1 +
      (monthSearch fuel y m doy).2 = monthDaysBefore y m + doy := by
  induction fuel with
  | zero =>
    intro y m doy h1 h2 h3 h4
    have : m = 13 := by omega
    subst this
    rw [monthDaysBefore_all] at h4
    omega
  | succ k ih =>
    intro y m doy h1 h2 h3 h4
    have hm12 : m ≤ 12 := by omega
    by_cases h : doy < daysInMonth y m
    · simp only [monthSearch, if_pos h]
      exact ⟨h1, hm12, h3, h, trivial⟩
    · have hstep := monthDaysBefore_step y h1 hm12
      have hrec := ih y (m + 1) (doy - daysInMonth y m) (by omega)
        (by omega) (by omega) (by omega)
      simp only [monthSearch, if_neg h]
      exact ⟨hrec.1, hrec.2.1, hrec.2.2.1, hrec.2.2.2.1, by omega⟩

theorem daysBeforeYear_cycle_mul (e : Int) :
    daysBeforeYear (400 * e) = 146097 * e - 1 := by
  unfold daysBeforeYear
  omega

/-- The invariants of `civilFromDays` in one statement: the output triple is
a valid civil date and maps back to the input day number. -/
theorem civilFromDays_correct (z : Int) :
    1 ≤ (civilFromDays z).2.1 ∧ (civilFromDays z).2.1 ≤ 12 ∧
    1 ≤ (civilFromDays z).2.2 ∧
    (civilFromDays z).2.2 ≤
      daysInMonth (civilFromDays z).1 (civilFromDays z).2.1 ∧
    daysFromCivil (civilFromDays z).1 (civilFromDays z).2.1
      (civilFromDays z).2.2 = z := by
  have hdoe1 : 0 ≤ (z + 719528) % 146097 := Int.emod_nonneg _ (by norm_num)
  have hdoe2 : (z + 719528) % 146097 < 146097 :=
    Int.emod_lt_of_pos _ (by norm_num)
  have hsum : sumDaysYears (400 * ((z + 719528) / 146097)) 400 = 146097 := by
    have h1 := daysBeforeYear_cycle (400 * ((z + 719528) / 146097))
    have h2 := sumDaysYears_eq 400 (400 * ((z + 719528) / 146097))
    have hc : ((400 : Nat) : Int) = (400 : Int) := by norm_num
    rw [hc] at h2
    omega
  have hy := yearSearch_correct 400 (400 * ((z + 719528) / 146097))
    ((z + 719528) % 146097) hdoe1 (by rw [hsum]; exact hdoe2)
  set p := yearSearch 400 (400 * ((z + 719528) / 146097))
    ((z + 719528) % 146097) with hp
  have hm := monthSearch_correct 12 p.1 1 p.2 (by norm_num) (by norm_num)
    hy.1 (by simpa [monthDaysBefore] using hy.2.1)
  set q := monthSearch 12 p.1 1 p.2 with hq
  have hcz : civilFromDays z = (p.1, q.1, q.2 + 1) := rfl
  rw [hcz]
  dsimp only
  have hbase := daysBeforeYear_cycle_mul ((z + 719528) / 146097)
  have hzz : 146097 * ((z + 719528) / 146097) + (z + 719528) % 146097 =
      z + 719528 := by
    have := Int.ediv_add_emod (z + 719528) 146097
    omega
  have hmdb1 : monthDaysBefore p.1 1 = 0 := by simp [monthDaysBefore]
  have hy3 := hy.2.2
  have hm4 := hm.2.2.2.1
  have hm5 := hm.2.2.2.2
  refine ⟨hm.1, hm.2.1, by omega, by omega, ?_⟩
  unfold daysFromCivil
  omega

theorem monthDaysBefore_nonneg (y : Int) {m : Int} (h1 : 1 ≤ m)
    (h2 : m ≤ 13) : 0 ≤ monthDaysBefore y m := by
  by_cases hl : isLeap y <;> interval_cases m <;>
    simp [monthDaysBefore, hl]

theorem monthDaysBefore_mono (y : Int) {a b : Int} (h1 : 1 ≤ a) (h2 : a ≤ b)
    (h3 : b ≤ 13) : monthDaysBefore y a ≤ monthDaysBefore y b := by
  have h4 : a ≤ 13 := h2.trans h3
  have h5 : 1 ≤ b := h1.trans h2
  by_cases hl : isLeap y <;> interval_cases a <;> interval_cases b <;>
    simp [monthDaysBefore, hl]

theorem monthDaysBefore_lt_year (y : Int) {m : Int} (h1 : 1 ≤ m)
    (h2 : m ≤ 12) :
    monthDaysBefore y m + daysInMonth y m ≤ daysInYear y := by
  have hstep := monthDaysBefore_step y h1 h2
  have hmono := monthDaysBefore_mono y (a := m + 1) (b := 13)
    (by omega) (by omega) (by omega)
  rw [monthDaysBefore_all] at hmono
  omega

/-- A valid civil triple is determined by its day number. -/
theorem civil_unique {y m d y2 m2 d2 : Int}
    (hm1 : 1 ≤ m) (hm2 : m ≤ 12) (hd1 : 1 ≤ d) (hd2 : d ≤ daysInMonth y m)
    (hn1 : 1 ≤ m2) (hn2 : m2 ≤ 12) (he1 : 1 ≤ d2)
    (he2 : d2 ≤ daysInMonth y2 m2)
    (heq : daysFromCivil y m d = daysFromCivil y2 m2 d2) :
    y = y2 ∧ m = m2 ∧ d = d2 := by
  have hx1 : 0 ≤ monthDaysBefore y m + (d - 1) := by
    have := monthDaysBefore_nonneg y hm1 (by omega)
    omega
  have hx2 : monthDaysBefore y m + (d - 1) ≤ daysInYear y - 1 := by
    have := monthDaysBefore_lt_year y hm1 hm2
    omega
  have hy1 : 0 ≤ monthDaysBefore y2 m2 + (d2 - 1) := by
    have := monthDaysBefore_nonneg y2 hn1 (by omega)
    omega
  have hy2 : monthDaysBefore y2 m2 + (d2 - 1) ≤ daysInYear y2 - 1 := by
    have := monthDaysBefore_lt_year y2 hn1 hn2
    omega
  unfold daysFromCivil at heq
  have hyy : y = y2 := by
    rcases lt_trichotomy y y2 with h | h | h
    · exfalso
      have h1 := daysBeforeYear_step y
      have h2 := daysBeforeYear_mono (a := y + 1) (b := y2) (by omega)
      omega
    · exact h
    · exfalso
      have h1 := daysBeforeYear_step y2
      have h2 := daysBeforeYear_mono (a := y2 + 1) (b := y) (by omega)
      omega
  subst hyy
  have hmm : m = m2 := by
    rcases lt_trichotomy m m2 with h | h | h
    · exfalso
      have h1 := monthDaysBefore_step y hm1 hm2
      have h2 := monthDaysBefore_mono y (a := m + 1) (b := m2) (by omega)
        (by omega) (by omega)
      omega
    · exact h
    · exfalso
      have h1 := monthDaysBefore_step y hn1 hn2
      have h2 := monthDaysBefore_mono y (a := m2 + 1) (b := m) (by omega)
        (by omega) (by omega)
      omega
  subst hmm
  exact ⟨rfl, rfl, by omega⟩

/-- On valid civil triples, `civilFromDays` inverts `daysFromCivil`. -/
theorem civilFromDays_daysFromCivil {y m d : Int} (hm1 : 1 ≤ m)
    (hm2 : m ≤ 12) (hd1 : 1 ≤ d) (hd2 : d ≤ daysInMonth y m) :
    civilFromDays (daysFromCivil y m d) = (y, m, d) := by
  have h := civilFromDays_correct (daysFromCivil y m d)
  obtain ⟨hq1, hq2, hq3, hq4, hq5⟩ := h
  have := civil_unique hq1 hq2 hq3 hq4 hm1 hm2 hd1 hd2 hq5
  obtain ⟨e1, e2, e3⟩ := this
  ext1
  · exact e1
  · ext1
    · exact e2
    · exact e3

/-! ## JS `Date` accessors, `new Date(y, m, d)` and `setDate`
(day resolution; months are 0-based in `mkDate`/`getMonth`, matching JS). -/

/-- `date.getFullYear()`. -/
def getFullYear (z : Int) : Int := (civilFromDays z).1

/-- The 1-based month of a day number. -/
def monthOf1 (z : Int) : Int := (civilFromDays z).2.1

/-- `date.getMonth()` (0-based, as in JS). -/
def getMonth (z : Int) : Int := monthOf1 z - 1

/-- `date.getDate()` (day of month, 1-based). -/
def getDate (z : Int) : Int := (civilFromDays z).2.2

/-- `date.getDay()` (0 = Sunday); 1970-01-01 (day 0) was a Thursday. -/
def getDay (z : Int) : Int := (z + 4) % 7

/-- `new Date(y, m, d)` at day resolution: `m` is 0-based and arbitrary
(overflowing months roll the year), `d` is arbitrary (overflowing days roll
the month), matching the JS constructor's normalization. -/
def mkDate (y m d : Int) : Int :=
  daysFromCivil ((y * 12 + m) / 12) ((y * 12 + m) % 12 + 1) d

/-- `date.setDate(n)`: replace the day-of-month by `n`, normalizing
out-of-range values. -/
def setDate (z n : Int) : Int := daysFromCivil (getFullYear z) (monthOf1 z) n

theorem daysFromCivil_day_linear (y m a b : Int) :
    daysFromCivil y m a = daysFromCivil y m b + (a - b) := by
  unfold daysFromCivil
  ring

theorem setDate_eq (z n : Int) : setDate z n = z + (n - getDate z) := by
  have h := (civilFromDays_correct z).2.2.2.2
  unfold setDate getFullYear monthOf1
  rw [daysFromCivil_day_linear _ _ n (getDate z)]
  unfold getDate at *
  omega

theorem mkDate_valid (y : Int) {m : Int} (h1 : 0 ≤ m) (h2 : m ≤ 11)
    (d : Int) : mkDate y m d = daysFromCivil y (m + 1) d := by
  unfold mkDate
  have e1 : (y * 12 + m) / 12 = y := by omega
  have e2 : (y * 12 + m) % 12 = m := by omega
  rw [e1, e2]

/-! ## buildMonthGrid and month navigation (C2, C8)

Source:
```
function buildMonthGrid(d) {
  const first = startOfMonth(d);
  const last = endOfMonth(d);
  const startWeekDay = first.getDay(); // 0=Sun
  const days = [];
  const gridStart = new Date(first);
  gridStart.setDate(first.getDate() - startWeekDay);
  for (let i = 0; i < 42; i++) {
    const cell = new Date(gridStart);
    cell.setDate(gridStart.getDate() + i);
    days.push(cell);
  }
  return days;
}
function prevMonth() { setViewDate(new Date(viewDate.getFullYear(), viewDate.getMonth() - 1, 1)); }
function nextMonth() { setViewDate(new Date(viewDate.getFullYear(), viewDate.getMonth() + 1, 1)); }
```
-/

/-- `startOfMonth`: `new Date(d.getFullYear(), d.getMonth(), 1)`. -/
def startOfMonth (z : Int) : Int := mkDate (getFullYear z) (getMonth z) 1

/-- `endOfMonth`: `new Date(d.getFullYear(), d.getMonth() + 1, 0)`. -/
def endOfMonth (z : Int) : Int := mkDate (getFullYear z) (getMonth z + 1) 0

/-- `prevMonth`: `new Date(y, m - 1, 1)`. -/
def prevMonth (z : Int) : Int := mkDate (getFullYear z) (getMonth z - 1) 1

/-- `nextMonth`: `new Date(y, m + 1, 1)`. -/
def nextMonth (z : Int) : Int := mkDate (getFullYear z) (getMonth z + 1) 1

/-- `buildMonthGrid` from the source (cells at day resolution). -/
def buildMonthGrid (z : Int) : List Int :=
  let first := startOfMonth z
  let startWeekDay := getDay first
  let gridStart := setDate first (getDate first - startWeekDay)
  (List.range 42).map fun (i : Nat) => setDate gridStart (getDate gridStart + (i : Int))

theorem buildMonthGrid_cell (z : Int) {i : Nat} (h : i < 42) :
    (buildMonthGrid z)[i]? =
      some (startOfMonth z - getDay (startOfMonth z) + (i : Int)) := by
  unfold buildMonthGrid
  rw [List.getElem?_map, List.getElem?_range h]
  have h1 := setDate_eq (startOfMonth z)
    (getDate (startOfMonth z) - getDay (startOfMonth z))
  have h2 := setDate_eq
    (setDate (startOfMonth z) (getDate (startOfMonth z) - getDay (startOfMonth z)))
    (getDate (setDate (startOfMonth z)
      (getDate (startOfMonth z) - getDay (startOfMonth z))) + (i : Int))
  rw [Option.map_some']
  congr 1
  omega

/-- C2: for every reference date, `buildMonthGrid` returns exactly 42
cells; the `i`-th cell is the first of the reference month shifted back by
its Sunday-based weekday offset and forward by `i` days — so consecutive
cells differ by exactly one day (no gaps, no overlaps) — and the cell at
index 7 is a Sunday (`getDay = 0`). -/
theorem buildMonthGrid_spec (z : Int) :
    (buildMonthGrid z).length = 42 ∧
    (∀ i : Nat, i < 42 → (buildMonthGrid z)[i]? =
        some (startOfMonth z - getDay (startOfMonth z) + (i : Int))) ∧
    (∀ i : Nat, ∀ a b : Int, (buildMonthGrid z)[i]? = some a →
        (buildMonthGrid z)[i + 1]? = some b → b = a + 1) ∧
    (∀ c : Int, (buildMonthGrid z)[7]? = some c → getDay c = 0) := by
  have hlen : (buildMonthGrid z).length = 42 := by
    unfold buildMonthGrid
    rw [List.length_map, List.length_range]
  refine ⟨hlen, fun i h => buildMonthGrid_cell z h, ?_, ?_⟩
  · intro i a b ha hb
    by_cases h : i + 1 < 42
    · rw [buildMonthGrid_cell z h] at hb
      rw [buildMonthGrid_cell z (by omega)] at ha
      have hc : a = startOfMonth z - getDay (startOfMonth z) + (i : Int) :=
        (Option.some_inj.1 ha).symm
      have hd : b = startOfMonth z - getDay (startOfMonth z) + ((i + 1 : Nat) : Int) :=
        (Option.some_inj.1 hb).symm
      push_cast at hd
      omega
    · exfalso
      have : (buildMonthGrid z)[i + 1]? = none :=
        List.getElem?_eq_none (by omega)
      rw [this] at hb
      exact Option.noConfusion hb
  · intro c hc
    rw [buildMonthGrid_cell z (by norm_num)] at hc
    have he : c = startOfMonth z - getDay (startOfMonth z) + ((7 : Nat) : Int) :=
      (Option.some_inj.1 hc).symm
    unfold getDay at *
    omega

/-- Witness for C2 at the concrete reference date 1970-01-01 (day 0). -/
theorem buildMonthGrid_spec_witness :
    (buildMonthGrid 0).length = 42 ∧
    (buildMonthGrid 0)[7]? =
      some (startOfMonth 0 - getDay (startOfMonth 0) + ((7 : Nat) : Int)) ∧
    getDay (startOfMonth 0 - getDay (startOfMonth 0) + ((7 : Nat) : Int)) = 0 :=
  ⟨(buildMonthGrid_spec 0).1,
   (buildMonthGrid_spec 0).2.1 7 (by norm_num),
   (buildMonthGrid_spec 0).2.2.2 _ ((buildMonthGrid_spec 0).2.1 7 (by norm_num))⟩

theorem prevMonth_eq (z : Int) :
    prevMonth z = if monthOf1 z = 1 then daysFromCivil (getFullYear z - 1) 12 1
      else daysFromCivil (getFullYear z) (monthOf1 z - 1) 1 := by
  have hb1 : 1 ≤ monthOf1 z := (civilFromDays_correct z).1
  have hb2 : monthOf1 z ≤ 12 := (civilFromDays_correct z).2.1
  unfold prevMonth mkDate getMonth
  split_ifs with h
  · have e1 : (getFullYear z * 12 + (monthOf1 z - 1 - 1)) / 12 =
        getFullYear z - 1 := by omega
    have e2 : (getFullYear z * 12 + (monthOf1 z - 1 - 1)) % 12 = 11 := by
      omega
    rw [e1, e2]
    norm_num
  · have e1 : (getFullYear z * 12 + (monthOf1 z - 1 - 1)) / 12 =
        getFullYear z := by omega
    have e2 : (getFullYear z * 12 + (monthOf1 z - 1 - 1)) % 12 =
        monthOf1 z - 2 := by omega
    rw [e1, e2]
    have e3 : monthOf1 z - 2 + 1 = monthOf1 z - 1 := by ring
    rw [e3]

theorem nextMonth_eq (z : Int) :
    nextMonth z = if monthOf1 z = 12 then daysFromCivil (getFullYear z + 1) 1 1
      else daysFromCivil (getFullYear z) (monthOf1 z + 1) 1 := by
  have hb1 : 1 ≤ monthOf1 z := (civilFromDays_correct z).1
  have hb2 : monthOf1 z ≤ 12 := (civilFromDays_correct z).2.1
  unfold nextMonth mkDate getMonth
  split_ifs with h
  · have e1 : (getFullYear z * 12 + (monthOf1 z - 1 + 1)) / 12 =
        getFullYear z + 1 := by omega
    have e2 : (getFullYear z * 12 + (monthOf1 z - 1 + 1)) % 12 = 0 := by
      omega
    rw [e1, e2]
    norm_num
  · have e1 : (getFullYear z * 12 + (monthOf1 z - 1 + 1)) / 12 =
        getFullYear z := by omega
    have e2 : (getFullYear z * 12 + (monthOf1 z - 1 + 1)) % 12 =
        monthOf1 z := by omega
    rw [e1, e2]

theorem civil_of_prevMonth (z : Int) :
    civilFromDays (prevMonth z) =
      if monthOf1 z = 1 then (getFullYear z - 1, 12, 1)
      else (getFullYear z, monthOf1 z - 1, 1) := by
  have hb1 : 1 ≤ monthOf1 z := (civilFromDays_correct z).1
  have hb2 : monthOf1 z ≤ 12 := (civilFromDays_correct z).2.1
  rw [prevMonth_eq]
  split_ifs with h
  · exact civilFromDays_daysFromCivil (by norm_num) (by norm_num) (by norm_num)
      (daysInMonth_pos _ (by norm_num) (by norm_num))
  · exact civilFromDays_daysFromCivil (by omega) (by omega) (by norm_num)
      (daysInMonth_pos _ (by omega) (by omega))

theorem civil_of_nextMonth (z : Int) :
    civilFromDays (nextMonth z) =
      if monthOf1 z = 12 then (getFullYear z + 1, 1, 1)
      else (getFullYear z, monthOf1 z + 1, 1) := by
  have hb1 : 1 ≤ monthOf1 z := (civilFromDays_correct z).1
  have hb2 : monthOf1 z ≤ 12 := (civilFromDays_correct z).2.1
  rw [nextMonth_eq]
  split_ifs with h
  · exact civilFromDays_daysFromCivil (by norm_num) (by norm_num) (by norm_num)
      (daysInMonth_pos _ (by norm_num) (by norm_num))
  · exact civilFromDays_daysFromCivil (by omega) (by omega) (by norm_num)
      (daysInMonth_pos _ (by omega) (by omega))

/-- C8 (amended): `prevMonth`/`nextMonth` shift the view by exactly one
whole calendar month — the month index moves by one with year carry, not by
30 days — but always land on day 1 of the target month (the day-of-month of
the reference date is not preserved). -/
theorem prevMonth_nextMonth_spec (z : Int) :
    getDate (prevMonth z) = 1 ∧ getDate (nextMonth z) = 1 ∧
    (getMonth z = 0 → getFullYear (prevMonth z) = getFullYear z - 1 ∧
      getMonth (prevMonth z) = 11) ∧
    (0 < getMonth z → getFullYear (prevMonth z) = getFullYear z ∧
      getMonth (prevMonth z) = getMonth z - 1) ∧
    (getMonth z = 11 → getFullYear (nextMonth z) = getFullYear z + 1 ∧
      getMonth (nextMonth z) = 0) ∧
    (getMonth z < 11 → getFullYear (nextMonth z) = getFullYear z ∧
      getMonth (nextMonth z) = getMonth z + 1) := by
  have hb1 : 1 ≤ monthOf1 z := (civilFromDays_correct z).1
  have hb2 : monthOf1 z ≤ 12 := (civilFromDays_correct z).2.1
  have hcp := civil_of_prevMonth z
  have hcn := civil_of_nextMonth z
  have hgm : getMonth z = monthOf1 z - 1 := rfl
  refine ⟨?_, ?_, ?_, ?_, ?_, ?_⟩
  · show (civilFromDays (prevMonth z)).2.2 = 1
    rw [hcp]
    split_ifs <;> rfl
  · show (civilFromDays (nextMonth z)).2.2 = 1
    rw [hcn]
    split_ifs <;> rfl
  · intro h0
    have h1 : monthOf1 z = 1 := by omega
    constructor
    · show (civilFromDays (prevMonth z)).1 = getFullYear z - 1
      rw [hcp, if_pos h1]
    · show (civilFromDays (prevMonth z)).2.1 - 1 = 11
      rw [hcp, if_pos h1]
      norm_num
  · intro h0
    have h1 : ¬ monthOf1 z = 1 := by omega
    constructor
    · show (civilFromDays (prevMonth z)).1 = getFullYear z
      rw [hcp, if_neg h1]
    · show (civilFromDays (prevMonth z)).2.1 - 1 = getMonth z - 1
      rw [hcp, if_neg h1]
      rfl
  · intro h0
    have h1 : monthOf1 z = 12 := by omega
    constructor
    · show (civilFromDays (nextMonth z)).1 = getFullYear z + 1
      rw [hcn, if_pos h1]
    · show (civilFromDays (nextMonth z)).2.1 - 1 = 0
      rw [hcn, if_pos h1]
      norm_num
  · intro h0
    have h1 : ¬ monthOf1 z = 12 := by omega
    constructor
    · show (civilFromDays (nextMonth z)).1 = getFullYear z
      rw [hcn, if_neg h1]
    · show (civilFromDays (nextMonth z)).2.1 - 1 = getMonth z + 1
      rw [hcn, if_neg h1]
      show monthOf1 z + 1 - 1 = getMonth z + 1
      omega



set_option maxRecDepth 20000 in
/-- C8 counterexample: from the reference date 2024-01-15, `prevMonth`
lands on 2023-12-01, although December 2023 has 31 ≥ 15 days — the
day-of-month is reset to 1, not preserved. -/
theorem prevMonth_counterexample :
    getDate (daysFromCivil 2024 1 15) = 15 ∧
    prevMonth (daysFromCivil 2024 1 15) = daysFromCivil 2023 12 1 ∧
    daysInMonth 2023 12 = 31 ∧
    getDate (prevMonth (daysFromCivil 2024 1 15)) = 1 ∧
    getDate (prevMonth (daysFromCivil 2024 1 15)) ≠
      getDate (daysFromCivil 2024 1 15) := by
  refine ⟨by decide, by decide, by decide, by decide, by decide⟩

set_option maxRecDepth 20000 in
/-- Witness for C8 (amended) at the concrete reference date 2024-01-15. -/
theorem prevMonth_nextMonth_spec_witness :
    getFullYear (prevMonth (daysFromCivil 2024 1 15)) =
      getFullYear (daysFromCivil 2024 1 15) - 1 ∧
    getMonth (prevMonth (daysFromCivil 2024 1 15)) = 11 :=
  (prevMonth_nextMonth_spec (daysFromCivil 2024 1 15)).2.2.1 (by decide)

/-! ## escapeICSText (C7)

Source: `function escapeICSText(s='') { return s.replace(/\n/g,'\\n').replace(/,/g,'\,'); }`.
Note that in a JavaScript string literal `'\,'` denotes the single
character `,` (an unrecognised escape), so the second `replace` maps every
comma to a comma and is a no-op.  The first replacement string `'\\n'`
denotes backslash followed by `n`. -/

/-- `str.replace(/target/g, repl)` for a single-character pattern:
replace every occurrence of `target` by the string `repl`. -/
def replaceAllChar (target : Char) (repl : List Char) : List Char → List Char
  | [] => []
  | c :: r => (if c = target then repl else [c]) ++ replaceAllChar target repl r

/-- `escapeICSText` from the source: newlines become `\n` (two characters);
the comma replacement uses the replacement string `'\,'`, which in
JavaScript is just `","`, so commas are left unchanged. -/
def escapeICSText (s : List Char) : List Char :=
  replaceAllChar ',' [','] (replaceAllChar '\n' ['\\', 'n'] s)

/-- C7: the code contradicts the claim (and the ICS escaping rules it is
meant to implement): on the input `"a,b"` the output is `"a,b"` — the comma
is not preceded by a backslash, because the JavaScript replacement string
`'\,'` evaluates to `","`.  Newline escaping does work: `"a\nb"` becomes
`"a\\nb"`. -/
theorem escapeICSText_comma_unescaped :
    escapeICSText (toL "a,b") = toL "a,b" ∧
    escapeICSText (toL "a\nb") = toL "a\\nb" ∧
    '\\' ∉ escapeICSText (toL "a,b") := by
  refine ⟨rfl, rfl, ?_⟩
  decide

/-! ## deleteEvent (C9)

Source:
```
function deleteEvent(id) {
  if (!confirm("Vymazať udalosť?")) return;
  setEvents(prev => prev.filter(p => p.id !== id));
}
```
The confirmation dialog is modelled as the boolean `confirmed`. -/

/-- `deleteEvent`: when the confirmation dialog is declined the list is
untouched; otherwise every event whose id equals the given id is removed. -/
def deleteEvent (confirmed : Bool) (events : List SEvent) (i : List Char) :
    List SEvent :=
  if confirmed then events.filter (fun p => p.id != i) else events

/-- C9: deletion (after confirmation) removes exactly the events with the
given id and nothing else: the result is a sublist of the input (order and
other events preserved), no surviving event has the deleted id, every event
with a different id survives, deleting an id not present in the list is a
no-op, deleting twice equals deleting once, and a declined confirmation
leaves the list unchanged. -/
theorem deleteEvent_spec (events : List SEvent) (i : List Char) :
    deleteEvent false events i = events ∧
    (deleteEvent true events i).Sublist events ∧
    (∀ p ∈ deleteEvent true events i, p.id ≠ i) ∧
    (∀ p ∈ events, p.id ≠ i → p ∈ deleteEvent true events i) ∧
    ((∀ p ∈ events, p.id ≠ i) → deleteEvent true events i = events) ∧
    deleteEvent true (deleteEvent true events i) i = deleteEvent true events i := by
  refine ⟨rfl, ?_, ?_, ?_, ?_, ?_⟩
  · exact List.filter_sublist events
  · intro p hp
    have := List.of_mem_filter hp
    simpa [bne_iff_ne] using this
  · intro p hp hne
    exact List.mem_filter.2 ⟨hp, by simpa [bne_iff_ne] using hne⟩
  · intro h
    simp only [deleteEvent, if_true]
    exact List.filter_eq_self.2 fun p hp => by simpa [bne_iff_ne] using h p hp
  · simp only [deleteEvent, if_true]
    exact List.filter_eq_self.2 fun p hp => (List.mem_filter.1 hp).2

/-- Witness for C9 at a concrete input: deleting an absent id is a no-op. -/
theorem deleteEvent_spec_witness :
    deleteEvent true [⟨toL "a", toL "t", 0, 60, [], []⟩] (toL "b") =
      [⟨toL "a", toL "t", 0, 60, [], []⟩] :=
  (deleteEvent_spec [⟨toL "a", toL "t", 0, 60, [], []⟩] (toL "b")).2.2.2.2.1
    (by decide)

/-! ## String utilities shared by the form controller and the exporters -/

/-- Is `c` a decimal digit? -/
def isDigit (c : Char) : Bool := '0' ≤ c && c ≤ '9'

/-- Numeric value of a digit character. -/
def digitVal (c : Char) : Nat := c.toNat - 48

/-- The decimal digit character for `n < 10`. -/
def digitChar (n : Nat) : Char :=
  match n with
  | 0 => '0'
  | 1 => '1'
  | 2 => '2'
  | 3 => '3'
  | 4 => '4'
  | 5 => '5'
  | 6 => '6'
  | 7 => '7'
  | 8 => '8'
  | 9 => '9'
  | _ => '0'

/-- Decimal digits, fuel-recursive so that it reduces in the kernel (the
fuel bounds the number of digits; `natDigits` supplies enough). -/
def natDigitsAux : Nat → Nat → List Char
  | 0, _ => []
  | fuel + 1, n =>
    if n < 10 then [digitChar n]
    else natDigitsAux fuel (n / 10) ++ [digitChar (n % 10)]

/-- Decimal digits of a natural number (no leading zeros except for `0`). -/
def natDigits (n : Nat) : List Char := natDigitsAux (n + 1) n

/-- Decimal rendering of an integer. -/
def intDigits (n : Int) : List Char :=
  if n < 0 then '-' :: natDigits n.natAbs else natDigits n.toNat

/-- Two-digit zero-padded rendering (for `0 ≤ n < 100`). -/
def pad2 (n : Int) : List Char :=
  if n < 10 then '0' :: natDigits n.toNat else natDigits n.toNat

/-- Four-digit zero-padded rendering (for `0 ≤ n < 10000`). -/
def pad4 (n : Int) : List Char :=
  if n < 10 then '0' :: '0' :: '0' :: natDigits n.toNat
  else if n < 100 then '0' :: '0' :: natDigits n.toNat
  else if n < 1000 then '0' :: natDigits n.toNat
  else natDigits n.toNat

/-- `str.trim()` restricted to ordinary spaces. -/
def trimChars (s : List Char) : List Char :=
  ((s.dropWhile (· = ' ')).reverse.dropWhile (· = ' ')).reverse

/-- `str.split(",")` helper with an accumulator for the current segment. -/
def splitCommaAux : List Char → List Char → List (List Char)
  | [], acc => [acc.reverse]
  | c :: r, acc =>
    if c = ',' then acc.reverse :: splitCommaAux r []
    else splitCommaAux r (c :: acc)

/-- `str.split(",")`. -/
def splitComma (s : List Char) : List (List Char) := splitCommaAux s []

/-- `arr.join(", ")`. -/
def joinCommaSpace : List (List Char) → List Char
  | [] => []
  | [a] => a
  | a :: r => a ++ ',' :: ' ' :: joinCommaSpace r

/-! ## The event form controller (C3, C5, C10)

Source, `saveEvent`:
```
const start = new Date(form.date + "T" + form.time);
const ev = {
  id: editingEvent ? editingEvent.id : cryptoRandomId(),
  title: form.title || "(bez názvu)",
  start: start.toISOString(),
  duration: Number(form.duration) || 60,
  description: form.description,
  attendees: form.attendees.split(",").map(s => s.trim()).filter(Boolean),
};
setEvents(prev => {
  if (editingEvent) return prev.map(p => p.id === ev.id ? ev : p);
  return [...prev, ev];
});
```
`form.date`/`form.time` come from `<input type="date">`/`<input type="time">`
(`YYYY-MM-DD` / `HH:MM`); `new Date(...)` with a date-time string and no
timezone suffix parses in local time, and `toISOString` throws on an
invalid date, so the start computation is modelled as an `Option Int`
(`none` = `saveEvent` throws, no state change). -/

/-- The modal form state (all fields are strings, as in the DOM). -/
structure Form where
  title : List Char
  date : List Char
  time : List Char
  duration : List Char
  description : List Char
  attendees : List Char
deriving DecidableEq

/-- Parse a `YYYY-MM-DD` string with calendar range checks (the ISO date
parser behind `new Date`, which yields an Invalid Date out of range). -/
def parseDateStr (s : List Char) : Option (Int × Int × Int) :=
  match s with
  | [c1, c2, c3, c4, s1, c5, c6, s2, c7, c8] =>
    if s1 = '-' && s2 = '-' && isDigit c1 && isDigit c2 && isDigit c3 &&
        isDigit c4 && isDigit c5 && isDigit c6 && isDigit c7 && isDigit c8 then
      let y : Int := (1000 * digitVal c1 + 100 * digitVal c2 +
        10 * digitVal c3 + digitVal c4 : Nat)
      let m : Int := (10 * digitVal c5 + digitVal c6 : Nat)
      let d : Int := (10 * digitVal c7 + digitVal c8 : Nat)
      if 1 ≤ m && m ≤ 12 && 1 ≤ d && d ≤ daysInMonth y m then some (y, m, d)
      else none
    else none
  | _ => none

/-- Parse an `HH:MM` string into minutes since local midnight. -/
def parseTimeStr (s : List Char) : Option Int :=
  match s with
  | [c1, c2, s1, c3, c4] =>
    if s1 = ':' && isDigit c1 && isDigit c2 && isDigit c3 && isDigit c4 then
      let h : Int := (10 * digitVal c1 + digitVal c2 : Nat)
      let mi : Int := (10 * digitVal c3 + digitVal c4 : Nat)
      if h ≤ 23 && mi ≤ 59 then some (60 * h + mi) else none
    else none
  | _ => none

/-- The instant (ms since epoch, UTC) of local midnight of day `zday` under
the fixed timezone offset `tz` (ms east of UTC; local = UTC + tz). -/
def dateInstant (tz zday : Int) : Int := zday * 86400000 - tz

/-- `new Date(form.date + "T" + form.time)` as an instant: a date-time
string without timezone suffix is interpreted in local time; `none` models
an Invalid Date. -/
def parseLocalDateTime (tz : Int) (date time : List Char) : Option Int :=
  match parseDateStr date, parseTimeStr time with
  | some (y, m, d), some mins =>
    some (dateInstant tz (daysFromCivil y m d) + mins * 60000)
  | _, _ => none

/-- `Number(str)` restricted to integer-valued inputs: trims spaces, the
empty string is `0`, otherwise an optional sign and digits; `none` is NaN. -/
def jsNumber (s : List Char) : Option Int :=
  let t := trimChars s
  match t with
  | [] => some 0
  | '-' :: r =>
    if r ≠ [] && r.all isDigit then
      some (-(r.foldl (fun acc c => 10 * acc + digitVal c) 0 : Nat))
    else none
  | '+' :: r =>
    if r ≠ [] && r.all isDigit then
      some ((r.foldl (fun acc c => 10 * acc + digitVal c) 0 : Nat))
    else none
  | r =>
    if r.all isDigit then
      some ((r.foldl (fun acc c => 10 * acc + digitVal c) 0 : Nat))
    else none

/-- `Number(form.duration) || 60`: 60 when the field is NaN (`none`) or
parses to the falsy `0`, the parsed value otherwise. -/
def jsDuration (s : List Char) : Int :=
  match jsNumber s with
  | none => 60
  | some 0 => 60
  | some n => n

theorem jsDuration_of_none {s : List Char} (h : jsNumber s = none) :
    jsDuration s = 60 := by
  unfold jsDuration
  rw [h]

theorem jsDuration_of_zero {s : List Char} (h : jsNumber s = some 0) :
    jsDuration s = 60 := by
  unfold jsDuration
  rw [h]
  decide

theorem jsDuration_of_ne_zero {s : List Char} {n : Int}
    (h : jsNumber s = some n) (hn : n ≠ 0) : jsDuration s = n := by
  unfold jsDuration
  rw [h]
  cases n with
  | ofNat k =>
    cases k with
    | zero => exact absurd rfl hn
    | succ j => rfl
  | negSucc k => rfl

theorem jsDuration_ne_zero (s : List Char) : jsDuration s ≠ 0 := by
  unfold jsDuration
  cases h : jsNumber s with
  | none => decide
  | some n =>
    cases n with
    | ofNat k =>
      cases k with
      | zero => decide
      | succ j =>
        show ¬ Int.ofNat (Nat.succ j) = 0
        simp only [Int.ofNat_eq_coe]
        omega
    | negSucc k =>
      exact Int.negSucc_ne_zero k

theorem jsDuration_pos {s : List Char} {n : Int} (h : jsNumber s = some n)
    (hn : 0 ≤ n) : 0 < jsDuration s := by
  unfold jsDuration
  rw [h]
  cases n with
  | ofNat k =>
    cases k with
    | zero => decide
    | succ j =>
      show (0 : Int) < Int.ofNat (Nat.succ j)
      simp only [Int.ofNat_eq_coe]
      omega
  | negSucc k => exact absurd hn (not_le.2 (Int.negSucc_lt_zero k))

/-- The event record built by `saveEvent` (up to the throwing start
computation): placeholder title on empty title, `Number(duration) || 60`,
attendees split on commas, trimmed, empties dropped; the id is the edited
event's id or a fresh one. -/
def buildEvent (tz : Int) (form : Form) (editingId : Option (List Char))
    (gen : List Char) : Option SEvent :=
  (parseLocalDateTime tz form.date form.time).map fun st =>
    { id := editingId.getD gen
      title := if form.title = [] then toL "(bez názvu)" else form.title
      start := st
      duration := jsDuration form.duration
      description := form.description
      attendees := ((splitComma form.attendees).map trimChars).filter
        (fun a => !a.isEmpty) }

/-- The state update of `saveEvent`: replace-by-id when editing, append
otherwise. -/
def applySave (editing : Bool) (ev : SEvent) (prev : List SEvent) :
    List SEvent :=
  if editing then prev.map fun p => if p.id = ev.id then ev else p
  else prev ++ [ev]

/-- `saveEvent` end to end: build the event from the form (throwing on an
invalid date) and update the list. -/
def saveEvent (tz : Int) (form : Form) (editing : Option SEvent)
    (gen : List Char) (prev : List SEvent) : Option (List SEvent) :=
  (buildEvent tz form (editing.map SEvent.id) gen).map fun ev =>
    applySave editing.isSome ev prev

/-- C3 counterexample: with a valid date and the duration field `"-5"`,
`saveEvent` returns an event whose duration is `-5` — `Number(x) || 60`
only guards `NaN` and `0`, so the claimed positivity fails. -/
theorem saveEvent_duration_counterexample :
    (buildEvent 0
        ⟨toL "X", toL "2024-03-15", toL "09:00", toL "-5", [], []⟩
        none (toL "id1")).map SEvent.duration = some (-5) ∧
    ¬ (0 < (-5 : Int)) := by
  exact ⟨by decide, by decide⟩

/-- C3 (amended): whenever `saveEvent` returns an event (it throws instead
of returning when the date/time fields do not parse), the event's title is
non-empty (the placeholder exactly when the form title is empty), its
duration is 60 when the duration field does not parse as a number or parses
to 0 and the parsed value otherwise — hence nonzero always, and positive
whenever the field parses to a nonnegative number (negative parsed values
pass through unchanged) — and its start is the parsed local instant. -/
theorem buildEvent_invariants (tz : Int) (form : Form)
    (editingId : Option (List Char)) (gen : List Char) (ev : SEvent)
    (h : buildEvent tz form editingId gen = some ev) :
    ev.title ≠ [] ∧
    (form.title ≠ [] → ev.title = form.title) ∧
    (form.title = [] → ev.title = toL "(bez názvu)") ∧
    (jsNumber form.duration = none → ev.duration = 60) ∧
    (jsNumber form.duration = some 0 → ev.duration = 60) ∧
    (∀ n : Int, jsNumber form.duration = some n → n ≠ 0 → ev.duration = n) ∧
    ev.duration ≠ 0 ∧
    (∀ n : Int, jsNumber form.duration = some n → 0 ≤ n → 0 < ev.duration) ∧
    (∃ st : Int, parseLocalDateTime tz form.date form.time = some st ∧
      ev.start = st) := by
  unfold buildEvent at h
  cases hp : parseLocalDateTime tz form.date form.time with
  | none => rw [hp] at h; exact Option.noConfusion h
  | some st =>
    rw [hp] at h
    simp only [Option.map_some'] at h
    have hev := (Option.some_inj.1 h).symm
    subst hev
    refine ⟨?_, ?_, ?_, ?_, ?_, ?_, ?_, ?_, st, rfl, rfl⟩
    · show (if form.title = [] then toL "(bez názvu)" else form.title) ≠ []
      by_cases ht : form.title = []
      · rw [if_pos ht]
        decide
      · rw [if_neg ht]
        exact ht
    · intro ht
      show (if form.title = [] then toL "(bez názvu)" else form.title) =
        form.title
      rw [if_neg ht]
    · intro ht
      show (if form.title = [] then toL "(bez názvu)" else form.title) =
        toL "(bez názvu)"
      rw [if_pos ht]
    · intro hd
      exact jsDuration_of_none hd
    · intro hd
      exact jsDuration_of_zero hd
    · intro n hd hn
      exact jsDuration_of_ne_zero hd hn
    · exact jsDuration_ne_zero form.duration
    · intro n hd hn
      exact jsDuration_pos hd hn

set_option maxRecDepth 20000 in
/-- Witness for C3 (amended) at a concrete valid form. -/
theorem buildEvent_invariants_witness :
    buildEvent 0 ⟨[], toL "2024-03-15", toL "09:00", toL "abc", [], []⟩
        none (toL "id1") =
      some ⟨toL "id1", toL "(bez názvu)",
        daysFromCivil 2024 3 15 * 86400000 + 540 * 60000, 60, [], []⟩ ∧
    (toL "(bez názvu)" : List Char) ≠ [] ∧ (60 : Int) ≠ 0 := by
  have hb : buildEvent 0 ⟨[], toL "2024-03-15", toL "09:00", toL "abc", [], []⟩
      none (toL "id1") =
      some ⟨toL "id1", toL "(bez názvu)",
        daysFromCivil 2024 3 15 * 86400000 + 540 * 60000, 60, [], []⟩ := by
    decide
  have h := buildEvent_invariants 0
    ⟨[], toL "2024-03-15", toL "09:00", toL "abc", [], []⟩ none (toL "id1")
    ⟨toL "id1", toL "(bez názvu)",
      daysFromCivil 2024 3 15 * 86400000 + 540 * 60000, 60, [], []⟩ hb
  exact ⟨hb, h.1, h.2.2.2.2.2.2.1⟩

/-- C5: saving an edit of an event whose id occurs in the list (ids are
unique by the data-model invariant) keeps the list length, rewrites every
position holding the edited id — of which there is exactly one — to the
newly built event (which carries the edited id and all other fields from
the form), and leaves every other position untouched. -/
theorem saveEvent_edit_spec (tz : Int) (form : Form) (e0 : SEvent)
    (gen : List Char) (prev res : List SEvent) (ev : SEvent)
    (hb : buildEvent tz form (some e0.id) gen = some ev)
    (hs : saveEvent tz form (some e0) gen prev = some res)
    (hmem : e0.id ∈ prev.map SEvent.id)
    (hnodup : (prev.map SEvent.id).Nodup) :
    ev.id = e0.id ∧
    res.length = prev.length ∧
    (∀ i : Nat, ∀ p : SEvent, prev[i]? = some p → p.id ≠ e0.id →
      res[i]? = some p) ∧
    (∀ i : Nat, ∀ p : SEvent, prev[i]? = some p → p.id = e0.id →
      res[i]? = some ev) ∧
    (∃ i : Nat, ∃ p : SEvent, prev[i]? = some p ∧ p.id = e0.id) ∧
    (∀ i j : Nat, ∀ p q : SEvent, prev[i]? = some p → prev[j]? = some q →
      p.id = e0.id → q.id = e0.id → i = j) := by
  have hid : ev.id = e0.id := by
    unfold buildEvent at hb
    cases hp : parseLocalDateTime tz form.date form.time with
    | none => rw [hp] at hb; exact Option.noConfusion hb
    | some st =>
      rw [hp] at hb
      simp only [Option.map_some'] at hb
      have hev := (Option.some_inj.1 hb).symm
      subst hev
      rfl
  have hres : res = prev.map fun p => if p.id = ev.id then ev else p := by
    unfold saveEvent at hs
    simp only [Option.map_some', hb, Option.isSome_some, applySave,
      if_true] at hs
    exact (Option.some_inj.1 hs).symm
  subst hres
  refine ⟨hid, by rw [List.length_map], ?_, ?_, ?_, ?_⟩
  · intro i p hi hne
    rw [List.getElem?_map, hi, Option.map_some']
    rw [if_neg (by rw [hid]; exact hne)]
  · intro i p hi he
    rw [List.getElem?_map, hi, Option.map_some']
    rw [if_pos (by rw [hid]; exact he)]
  · obtain ⟨p, hp, hpe⟩ := List.mem_map.1 hmem
    obtain ⟨i, hi⟩ := List.mem_iff_getElem?.1 hp
    exact ⟨i, p, hi, hpe⟩
  · intro i j p q hi hj hpe hqe
    have hi' : i < prev.length := by
      by_contra hlt
      rw [List.getElem?_eq_none (by omega)] at hi
      exact Option.noConfusion hi
    have hmi : (prev.map SEvent.id)[i]? = some e0.id := by
      rw [List.getElem?_map, hi, Option.map_some', hpe]
    have hmj : (prev.map SEvent.id)[j]? = some e0.id := by
      rw [List.getElem?_map, hj, Option.map_some', hqe]
    exact List.getElem?_inj (by rw [List.length_map]; omega) hnodup
      (hmi.trans hmj.symm)

set_option maxRecDepth 20000 in
/-- Witness for C5 at a concrete one-event list. -/
theorem saveEvent_edit_spec_witness :
    (applySave true
        (⟨toL "a", toL "New",
          daysFromCivil 2024 3 15 * 86400000 + 540 * 60000, 30, [], []⟩ :
          SEvent)
        ([⟨toL "a", toL "Old", 0, 60, [], []⟩] : List SEvent)).length =
      ([⟨toL "a", toL "Old", 0, 60, [], []⟩] : List SEvent).length := by
  have hb : buildEvent 0
      ⟨toL "New", toL "2024-03-15", toL "09:00", toL "30", [], []⟩
      (some (toL "a")) (toL "g") =
      some ⟨toL "a", toL "New",
        daysFromCivil 2024 3 15 * 86400000 + 540 * 60000, 30, [], []⟩ := by
    decide
  have hs : saveEvent 0
      ⟨toL "New", toL "2024-03-15", toL "09:00", toL "30", [], []⟩
      (some (⟨toL "a", toL "Old", 0, 60, [], []⟩ : SEvent)) (toL "g")
      ([⟨toL "a", toL "Old", 0, 60, [], []⟩] : List SEvent) =
      some (applySave true
        (⟨toL "a", toL "New",
          daysFromCivil 2024 3 15 * 86400000 + 540 * 60000, 30, [], []⟩ :
          SEvent)
        ([⟨toL "a", toL "Old", 0, 60, [], []⟩] : List SEvent)) := by
    unfold saveEvent
    rw [show Option.map SEvent.id
        (some (⟨toL "a", toL "Old", 0, 60, [], []⟩ : SEvent)) =
      some (toL "a") from rfl]
    rw [hb]
    rfl
  exact (saveEvent_edit_spec 0
    ⟨toL "New", toL "2024-03-15", toL "09:00", toL "30", [], []⟩
    ⟨toL "a", toL "Old", 0, 60, [], []⟩ (toL "g")
    [⟨toL "a", toL "Old", 0, 60, [], []⟩] _ _ hb hs (by decide)
    (by decide)).2.1

/-! ## eventsForDay (C4)

Source:
```
function eventsForDay(date) {
  const dayStart = new Date(date.getFullYear(), date.getMonth(), date.getDate());
  const dayEnd = new Date(date.getFullYear(), date.getMonth(), date.getDate()+1);
  return events.filter(ev => {
    const s = new Date(ev.start);
    return s >= dayStart && s < dayEnd;
  }).sort((a,b)=> new Date(a.start)-new Date(b.start));
}
```
The numeric-comparator `sort` is modelled as an insertion sort by `start`
(any stable ascending sort; the claim only concerns the multiset and the
ordering). -/

/-- The sort order used by `eventsForDay`: ascending by start instant. -/
def evLe (a b : SEvent) : Prop := a.start ≤ b.start

instance : DecidableRel evLe := fun a b => by
  unfold evLe
  infer_instance

instance : IsTotal SEvent evLe :=
  ⟨fun a b => Int.le_total a.start b.start⟩

instance : IsTrans SEvent evLe :=
  ⟨fun _ _ _ h1 h2 => le_trans h1 h2⟩

/-- `eventsForDay date` under timezone offset `tz` (the grid cell `date`
is a day number; `dayStart`/`dayEnd` are the local-midnight instants the
code reconstructs from its civil components). -/
def eventsForDay (tz : Int) (date : Int) (events : List SEvent) :
    List SEvent :=
  let dayStart :=
    dateInstant tz (mkDate (getFullYear date) (getMonth date) (getDate date))
  let dayEnd :=
    dateInstant tz
      (mkDate (getFullYear date) (getMonth date) (getDate date + 1))
  List.insertionSort evLe
    (events.filter fun ev => decide (dayStart ≤ ev.start ∧ ev.start < dayEnd))

/-- Rebuilding a date from its own civil components is the identity. -/
theorem mkDate_self (z : Int) :
    mkDate (getFullYear z) (getMonth z) (getDate z) = z := by
  have hb1 : 1 ≤ monthOf1 z := (civilFromDays_correct z).1
  have hb2 : monthOf1 z ≤ 12 := (civilFromDays_correct z).2.1
  have hrt : daysFromCivil (getFullYear z) (monthOf1 z) (getDate z) = z :=
    (civilFromDays_correct z).2.2.2.2
  have h := mkDate_valid (getFullYear z) (m := getMonth z)
    (by unfold getMonth; omega) (by unfold getMonth; omega) (getDate z)
  rw [h]
  have : getMonth z + 1 = monthOf1 z := by unfold getMonth; ring
  rw [this]
  exact hrt

/-- Rebuilding with the day incremented lands exactly one day later. -/
theorem mkDate_self_succ (z : Int) :
    mkDate (getFullYear z) (getMonth z) (getDate z + 1) = z + 1 := by
  have hb1 : 1 ≤ monthOf1 z := (civilFromDays_correct z).1
  have hb2 : monthOf1 z ≤ 12 := (civilFromDays_correct z).2.1
  have h := mkDate_valid (getFullYear z) (m := getMonth z)
    (by unfold getMonth; omega) (by unfold getMonth; omega) (getDate z + 1)
  rw [h]
  have h2 : getMonth z + 1 = monthOf1 z := by unfold getMonth; ring
  rw [h2]
  rw [daysFromCivil_day_linear (getFullYear z) (monthOf1 z) (getDate z + 1)
    (getDate z)]
  have hrt : daysFromCivil (getFullYear z) (monthOf1 z) (getDate z) = z :=
    (civilFromDays_correct z).2.2.2.2
  omega

/-- C4: `eventsForDay` returns exactly the events whose start lies in the
half-open local day interval `[dayStart, dayStart + 1 day)` — as a
multiset, it is a permutation of that filter, and membership is equivalent
to lying in the interval — sorted ascending by start; in particular an
event starting exactly at the day's local midnight is included and one
starting exactly at the next local midnight is excluded. -/
theorem eventsForDay_spec (tz date : Int) (events : List SEvent) :
    (eventsForDay tz date events).Perm
      (events.filter fun ev => decide (dateInstant tz date ≤ ev.start ∧
        ev.start < dateInstant tz date + 86400000)) ∧
    (∀ ev : SEvent, ev ∈ eventsForDay tz date events ↔ ev ∈ events ∧
      dateInstant tz date ≤ ev.start ∧
      ev.start < dateInstant tz date + 86400000) ∧
    List.Sorted evLe (eventsForDay tz date events) ∧
    (∀ ev ∈ events, ev.start = dateInstant tz date →
      ev ∈ eventsForDay tz date events) ∧
    (∀ ev : SEvent, ev.start = dateInstant tz date + 86400000 →
      ev ∉ eventsForDay tz date events) := by
  have hfd : eventsForDay tz date events =
      List.insertionSort evLe
        (events.filter fun ev => decide (dateInstant tz date ≤ ev.start ∧
          ev.start < dateInstant tz date + 86400000)) := by
    unfold eventsForDay
    rw [mkDate_self, mkDate_self_succ]
    have : dateInstant tz (date + 1) = dateInstant tz date + 86400000 := by
      unfold dateInstant
      ring
    rw [this]
  have hperm : (eventsForDay tz date events).Perm
      (events.filter fun ev => decide (dateInstant tz date ≤ ev.start ∧
        ev.start < dateInstant tz date + 86400000)) := by
    rw [hfd]
    exact List.perm_insertionSort _ _
  have hmem : ∀ ev : SEvent, ev ∈ eventsForDay tz date events ↔
      ev ∈ events ∧ dateInstant tz date ≤ ev.start ∧
      ev.start < dateInstant tz date + 86400000 := by
    intro ev
    rw [hperm.mem_iff, List.mem_filter]
    constructor
    · rintro ⟨h1, h2⟩
      exact ⟨h1, of_decide_eq_true h2⟩
    · rintro ⟨h1, h2⟩
      exact ⟨h1, decide_eq_true h2⟩
  refine ⟨hperm, hmem, ?_, ?_, ?_⟩
  · rw [hfd]
    exact List.sorted_insertionSort evLe _
  · intro ev hev hst
    exact (hmem ev).2 ⟨hev, by omega, by omega⟩
  · intro ev hst hin
    have := ((hmem ev).1 hin).2.2
    omega

/-- Witness for C4: a single event starting exactly at local midnight of
day 0 (UTC timezone) is returned for that day. -/
theorem eventsForDay_spec_witness :
    (⟨toL "a", toL "t", 0, 60, [], []⟩ : SEvent) ∈
      eventsForDay 0 0 [⟨toL "a", toL "t", 0, 60, [], []⟩] :=
  (eventsForDay_spec 0 0 [⟨toL "a", toL "t", 0, 60, [], []⟩]).2.2.2.1
    ⟨toL "a", toL "t", 0, 60, [], []⟩ (by decide) (by decide)

/-! ## openEditModal and the edit round trip (C10)

Source:
```
function openEditModal(ev) {
  const d = new Date(ev.start);
  const isoDate = d.toISOString().slice(0,10);
  const hhmm = d.toTimeString().slice(0,5);
  setEditingEvent(ev);
  setForm({ title: ev.title, date: isoDate, time: hhmm,
            duration: ev.duration || 60, description: ev.description || "",
            attendees: (ev.attendees || []).join(", ") });
  setModalOpen(true);
}
```
`toISOString` renders the UTC calendar date, `toTimeString` the local wall
clock — the two are mixed in the form. -/

/-- `new Date(s).toISOString().slice(0,10)`: the UTC calendar date of the
instant `s`, rendered `YYYY-MM-DD`. -/
def utcDateStr (s : Int) : List Char :=
  let z := s / 86400000
  let c := civilFromDays z
  pad4 c.1 ++ '-' :: (pad2 c.2.1 ++ '-' :: pad2 c.2.2)

/-- `new Date(s).toTimeString().slice(0,5)`: the local wall-clock time
`HH:MM` of the instant `s` under offset `tz`. -/
def localTimeStr (tz s : Int) : List Char :=
  let loc := s + tz
  let mins := (loc % 86400000) / 60000
  pad2 (mins / 60) ++ ':' :: pad2 (mins % 60)

/-- `openEditModal(ev)`: the form populated from an existing event.  The
date field holds the UTC calendar date of `start` while the time field
holds its local wall-clock time. -/
def openEditForm (tz : Int) (ev : SEvent) : Form :=
  { title := ev.title
    date := utcDateStr ev.start
    time := localTimeStr tz ev.start
    duration := intDigits (if ev.duration = 0 then 60 else ev.duration)
    description := ev.description
    attendees := joinCommaSpace ev.attendees }

set_option maxRecDepth 100000 in
/-- C10 fails on the code: under the host offset UTC+2 (tz = 7200000 ms),
opening the event starting at 2024-03-15T23:00Z in the edit form and
saving it back unchanged yields a start one whole day earlier
(2024-03-14T23:00Z): `openEditModal` fills the date field with the UTC
calendar date (2024-03-15) but the time field with the local wall clock
(01:00 of local 2024-03-16), and `saveEvent` recombines them as a local
date-time.  The claim (edit then save preserves the start instant) states
the clear intent; the code's UTC/local mix is the slip. -/
theorem openEdit_save_shifts_start :
    (buildEvent 7200000
        (openEditForm 7200000 ⟨toL "e1", toL "T",
          daysFromCivil 2024 3 15 * 86400000 + 82800000, 60, [], []⟩)
        (some (toL "e1")) (toL "g")).map SEvent.start =
      some (daysFromCivil 2024 3 15 * 86400000 + 82800000 - 86400000) ∧
    daysFromCivil 2024 3 15 * 86400000 + 82800000 - 86400000 ≠
      daysFromCivil 2024 3 15 * 86400000 + 82800000 := by
  exact ⟨by decide, by decide⟩

/-! ## The JSON layer (C1, C6)

`makeShareLink` serializes the event list with
`btoa(encodeURIComponent(JSON.stringify(events)))`; the load effect
inverts it with `JSON.parse(decodeURIComponent(atob(shared)))`.  The
browser built-ins are embedded here: a JSON value type with the
`JSON.stringify` printer (no whitespace, object keys in insertion order,
standard string escapes) and a fueled `JSON.parse` (restricted to
whitespace-free documents and integer numbers, which covers every value
this program serializes). -/

/-- A JSON value (numbers restricted to integers). -/
inductive JVal where
  | jnull : JVal
  | jbool (b : Bool) : JVal
  | jnum (n : Int) : JVal
  | jstr (s : List Char) : JVal
  | jarr (elems : List JVal) : JVal
  | jobj (fields : List (List Char × JVal)) : JVal

/-- Lowercase hex digit (for `JSON.stringify`'s `\u00XX` escapes). -/
def hexDigitL (n : Nat) : Char :=
  match n with
  | 0 => '0'
  | 1 => '1'
  | 2 => '2'
  | 3 => '3'
  | 4 => '4'
  | 5 => '5'
  | 6 => '6'
  | 7 => '7'
  | 8 => '8'
  | 9 => '9'
  | 10 => 'a'
  | 11 => 'b'
  | 12 => 'c'
  | 13 => 'd'
  | 14 => 'e'
  | 15 => 'f'
  | _ => '0'

/-- Uppercase hex digit (for `encodeURIComponent`'s `%XX` escapes). -/
def hexDigitU (n : Nat) : Char :=
  match n with
  | 0 => '0'
  | 1 => '1'
  | 2 => '2'
  | 3 => '3'
  | 4 => '4'
  | 5 => '5'
  | 6 => '6'
  | 7 => '7'
  | 8 => '8'
  | 9 => '9'
  | 10 => 'A'
  | 11 => 'B'
  | 12 => 'C'
  | 13 => 'D'
  | 14 => 'E'
  | 15 => 'F'
  | _ => '0'

/-- Hex digit value, accepting both cases (as JSON and URI decoding do). -/
def hexValC (c : Char) : Option Nat :=
  if isDigit c then some (digitVal c)
  else if 'a' ≤ c && c ≤ 'f' then some (c.toNat - 87)
  else if 'A' ≤ c && c ≤ 'F' then some (c.toNat - 55)
  else none

/-- `JSON.stringify`'s escaping of one string character. -/
def jsonEscapeChar (c : Char) : List Char :=
  if c = '\"' then ['\\', '\"']
  else if c = '\\' then ['\\', '\\']
  else if c = '\n' then ['\\', 'n']
  else if c = '\r' then ['\\', 'r']
  else if c = '\t' then ['\\', 't']
  else if c = '\x08' then ['\\', 'b']
  else if c = '\x0c' then ['\\', 'f']
  else if c.toNat < 32 then
    ['\\', 'u', '0', '0', hexDigitL (c.toNat / 16), hexDigitL (c.toNat % 16)]
  else [c]

/-- `JSON.stringify` of a string. -/
def printJString (s : List Char) : List Char :=
  '\"' :: (s.flatMap jsonEscapeChar ++ ['\"'])

/-- `JSON.stringify` of an integer number. -/
def printJInt (n : Int) : List Char :=
  if n < 0 then '-' :: natDigits n.natAbs else natDigits n.toNat

mutual

/-- `JSON.stringify` (no spacing argument): keys in insertion order. -/
def printJVal : JVal → List Char
  | JVal.jnull => toL "null"
  | JVal.jbool true => toL "true"
  | JVal.jbool false => toL "false"
  | JVal.jnum n => printJInt n
  | JVal.jstr s => printJString s
  | JVal.jarr l => '[' :: (printArrItems l ++ [']'])
  | JVal.jobj l => '\x7b' :: (printObjItems l ++ ['\x7d'])

/-- Comma-separated array elements. -/
def printArrItems : List JVal → List Char
  | [] => []
  | [v] => printJVal v
  | v :: rest => printJVal v ++ ',' :: printArrItems rest

/-- Comma-separated `"key":value` object members. -/
def printObjItems : List (List Char × JVal) → List Char
  | [] => []
  | [kv] => printJString kv.1 ++ ':' :: printJVal kv.2
  | kv :: rest =>
    (printJString kv.1 ++ ':' :: printJVal kv.2) ++ ',' :: printObjItems rest

end

/-- Expect a literal prefix, returning the rest of the input. -/
def expectLit : List Char → List Char → Option (List Char)
  | [], s => some s
  | _ :: _, [] => none
  | c :: cs, x :: xs => if x = c then expectLit cs xs else none

/-- Parse the body of a JSON string (after the opening quote), decoding
the standard escapes. -/
def parseJStringBody : List Char → Option (List Char × List Char)
  | [] => none
  | c :: r =>
    if c = '\"' then some ([], r)
    else if c = '\\' then
      match r with
      | [] => none
      | e :: r2 =>
        if e = '\"' then
          (parseJStringBody r2).map fun p => ('\"' :: p.1, p.2)
        else if e = '\\' then
          (parseJStringBody r2).map fun p => ('\\' :: p.1, p.2)
        else if e = '/' then
          (parseJStringBody r2).map fun p => ('/' :: p.1, p.2)
        else if e = 'n' then
          (parseJStringBody r2).map fun p => ('\n' :: p.1, p.2)
        else if e = 'r' then
          (parseJStringBody r2).map fun p => ('\r' :: p.1, p.2)
        else if e = 't' then
          (parseJStringBody r2).map fun p => ('\t' :: p.1, p.2)
        else if e = 'b' then
          (parseJStringBody r2).map fun p => ('\x08' :: p.1, p.2)
        else if e = 'f' then
          (parseJStringBody r2).map fun p => ('\x0c' :: p.1, p.2)
        else if e = 'u' then
          match r2 with
          | h1 :: h2 :: h3 :: h4 :: r3 =>
            match hexValC h1, hexValC h2, hexValC h3, hexValC h4 with
            | some v1, some v2, some v3, some v4 =>
              (parseJStringBody r3).map fun p =>
                (Char.ofNat (((v1 * 16 + v2) * 16 + v3) * 16 + v4) :: p.1,
                  p.2)
            | _, _, _, _ => none
          | _ => none
        else none
    else (parseJStringBody r).map fun p => (c :: p.1, p.2)

/-- Greedily accumulate decimal digits. -/
def parseNatAux : List Char → Nat → Nat × List Char
  | [], acc => (acc, [])
  | c :: r, acc =>
    if isDigit c then parseNatAux r (10 * acc + digitVal c) else (acc, c :: r)

/-- Parse a nonempty digit run. -/
def parseNatPart : List Char → Option (Nat × List Char)
  | [] => none
  | c :: r => if isDigit c then some (parseNatAux (c :: r) 0) else none

mutual

/-- Fueled JSON parser (one unit of fuel per nesting/sequence step;
`jsonParseFull` supplies enough for any input it is given). -/
def parseJVal : Nat → List Char → Option (JVal × List Char)
  | 0, _ => none
  | _ + 1, [] => none
  | fuel + 1, c :: r =>
    if c = 'n' then (expectLit (toL "ull") r).map fun r2 => (JVal.jnull, r2)
    else if c = 't' then
      (expectLit (toL "rue") r).map fun r2 => (JVal.jbool true, r2)
    else if c = 'f' then
      (expectLit (toL "alse") r).map fun r2 => (JVal.jbool false, r2)
    else if c = '\"' then
      (parseJStringBody r).map fun p => (JVal.jstr p.1, p.2)
    else if c = '[' then
      if r.head? = some ']' then some (JVal.jarr [], r.tail)
      else (parseJArrItems fuel r).map fun p => (JVal.jarr p.1, p.2)
    else if c = '\x7b' then
      if r.head? = some '\x7d' then some (JVal.jobj [], r.tail)
      else (parseJObjItems fuel r).map fun p => (JVal.jobj p.1, p.2)
    else if c = '-' then
      (parseNatPart r).map fun p => (JVal.jnum (-(p.1 : Int)), p.2)
    else if isDigit c then
      (parseNatPart (c :: r)).map fun p => (JVal.jnum (p.1 : Int), p.2)
    else none

/-- Parse one or more comma-separated values up to the closing bracket. -/
def parseJArrItems : Nat → List Char → Option (List JVal × List Char)
  | 0, _ => none
  | fuel + 1, s =>
    match parseJVal fuel s with
    | none => none
    | some (v, r) =>
      match r with
      | ',' :: r2 =>
        match parseJArrItems fuel r2 with
        | none => none
        | some (l, r3) => some (v :: l, r3)
      | ']' :: r2 => some ([v], r2)
      | _ => none

/-- Parse one or more comma-separated members up to the closing brace. -/
def parseJObjItems :
    Nat → List Char → Option (List (List Char × JVal) × List Char)
  | 0, _ => none
  | fuel + 1, s =>
    match s with
    | '\"' :: r =>
      match parseJStringBody r with
      | none => none
      | some (k, r2) =>
        match r2 with
        | ':' :: r3 =>
          match parseJVal fuel r3 with
          | none => none
          | some (v, r4) =>
            match r4 with
            | ',' :: r5 =>
              match parseJObjItems fuel r5 with
              | none => none
              | some (l, r6) => some ((k, v) :: l, r6)
            | '\x7d' :: r5 => some ([(k, v)], r5)
            | _ => none
        | _ => none
    | _ => none

end

/-- `JSON.parse`: the whole input must form a single value. -/
def jsonParseFull (s : List Char) : Option JVal :=
  match parseJVal (s.length + 1) s with
  | some (v, []) => some v
  | _ => none

/-! ### Round-trip lemmas for the token layer -/

theorem digitChar_spec : ∀ n : Nat, n < 10 →
    isDigit (digitChar n) = true ∧ digitVal (digitChar n) = n := by
  decide

theorem hexDigitL_spec : ∀ n : Nat, n < 16 →
    hexValC (hexDigitL n) = some n := by
  decide

theorem hexDigitU_spec : ∀ n : Nat, n < 16 →
    hexValC (hexDigitU n) = some n := by
  decide

theorem isDigit_ne_special {c : Char} (h : isDigit c = true) :
    c ≠ 'n' ∧ c ≠ 't' ∧ c ≠ 'f' ∧ c ≠ '\"' ∧ c ≠ '[' ∧ c ≠ '\x7b' ∧
    c ≠ '-' ∧ c ≠ ']' ∧ c ≠ '\x7d' ∧ c ≠ ',' ∧ c ≠ '%' := by
  refine ⟨?_, ?_, ?_, ?_, ?_, ?_, ?_, ?_, ?_, ?_, ?_⟩ <;>
    (intro hc; subst hc; exact absurd h (by decide))

/-- Digit-count measure matching `natDigitsAux`: the power of ten that
shifts past all digits of `n`. -/
def tenShift : Nat → Nat → Nat
  | 0, _ => 1
  | fuel + 1, n => if n < 10 then 10 else tenShift fuel (n / 10) * 10

theorem parseNatAux_natDigitsAux (fuel : Nat) : ∀ n acc rest,
    n < 10 ^ fuel →
    parseNatAux (natDigitsAux fuel n ++ rest) acc =
      parseNatAux rest (acc * tenShift fuel n + n) := by
  induction fuel with
  | zero =>
    intro n acc rest h
    rw [pow_zero] at h
    have hn : n = 0 := by omega
    subst hn
    simp [natDigitsAux, tenShift, parseNatAux]
  | succ k ih =>
    intro n acc rest h
    by_cases h10 : n < 10
    · have hd := digitChar_spec n h10
      simp only [natDigitsAux, tenShift, if_pos h10, List.cons_append,
        List.nil_append, parseNatAux, hd.1, if_true, hd.2]
      congr 1
      ring
    · have hdiv : n / 10 < 10 ^ k := by
        rw [pow_succ] at h
        omega
      have hd := digitChar_spec (n % 10) (by omega)
      simp only [natDigitsAux, tenShift, if_neg h10, List.append_assoc,
        List.cons_append, List.nil_append]
      rw [ih (n / 10) acc (digitChar (n % 10) :: rest) hdiv]
      simp only [parseNatAux, hd.1, if_true, hd.2]
      congr 1
      have := Nat.div_add_mod n 10
      ring_nf
      omega

/-- The rest of the input after a digit run is untouched when it does not
start with a digit. -/
def headNotDigit : List Char → Prop
  | [] => True
  | c :: _ => isDigit c = false

instance : (l : List Char) → Decidable (headNotDigit l)
  | [] => isTrue trivial
  | c :: _ => inferInstanceAs (Decidable (isDigit c = false))

theorem parseNatAux_stop {rest : List Char} (h : headNotDigit rest)
    (acc : Nat) : parseNatAux rest acc = (acc, rest) := by
  cases rest with
  | nil => rfl
  | cons c t =>
    have hc : isDigit c = false := h
    simp only [parseNatAux, hc]
    simp

theorem natDigitsAux_head (fuel : Nat) : ∀ n, n < 10 ^ (fuel + 1) →
    ∃ c t, natDigitsAux (fuel + 1) n = c :: t ∧ isDigit c = true := by
  induction fuel with
  | zero =>
    intro n h
    rw [pow_one] at h
    exact ⟨digitChar n, [], by simp [natDigitsAux, h],
      (digitChar_spec n h).1⟩
  | succ k ih =>
    intro n h
    by_cases h10 : n < 10
    · exact ⟨digitChar n, [], by simp [natDigitsAux, h10],
        (digitChar_spec n h10).1⟩
    · have hdiv : n / 10 < 10 ^ (k + 1) := by
        rw [pow_succ] at h
        omega
      obtain ⟨c, t, he, hd⟩ := ih (n / 10) hdiv
      refine ⟨c, t ++ [digitChar (n % 10)], ?_, hd⟩
      rw [natDigitsAux, if_neg h10, he]
      rfl

theorem lt_ten_pow_succ (n : Nat) : n < 10 ^ (n + 1) := by
  have h := Nat.lt_pow_self (show (1 : Nat) < 10 by norm_num) (n + 1)
  omega

theorem parseNatPart_natDigits {rest : List Char} (h : headNotDigit rest)
    (n : Nat) : parseNatPart (natDigits n ++ rest) = some (n, rest) := by
  have hp := lt_ten_pow_succ n
  obtain ⟨c, t, he, hd⟩ := natDigitsAux_head n n hp
  unfold natDigits
  rw [he]
  simp only [List.cons_append, parseNatPart, hd, if_true]
  have := parseNatAux_natDigitsAux (n + 1) n 0 rest hp
  rw [he] at this
  simp only [List.cons_append] at this
  rw [this, parseNatAux_stop h]
  simp

theorem natDigits_head (n : Nat) :
    ∃ c t, natDigits n = c :: t ∧ isDigit c = true :=
  natDigitsAux_head n n (lt_ten_pow_succ n)

theorem expectLit_append (lit : List Char) : ∀ rest : List Char,
    expectLit lit (lit ++ rest) = some rest := by
  induction lit with
  | nil => intro rest; rfl
  | cons c cs ih =>
    intro rest
    simp only [List.cons_append, expectLit, if_pos rfl]
    exact ih rest

theorem parseJStringBody_roundtrip (s : List Char) : ∀ rest : List Char,
    parseJStringBody (s.flatMap jsonEscapeChar ++ '\"' :: rest) =
      some (s, rest) := by
  induction s with
  | nil =>
    intro rest
    simp only [List.flatMap_nil, List.nil_append]
    rw [parseJStringBody.eq_def]
    simp
  | cons c s' ih =>
    intro rest
    rw [List.flatMap_cons, List.append_assoc]
    by_cases h1 : c = '\"'
    · subst h1
      have hesc : jsonEscapeChar '\"' = ['\\', '\"'] := by decide
      rw [hesc]
      simp only [List.cons_append, List.nil_append]
      rw [parseJStringBody.eq_def]
      simp [ih]
    · 
      by_cases h2 : c = '\\'
      · subst h2
        have hesc : jsonEscapeChar '\\' = ['\\', '\\'] := by decide
        rw [hesc]
        simp only [List.cons_append, List.nil_append]
        rw [parseJStringBody.eq_def]
        simp [ih]
      · 
        by_cases h3 : c = '\n'
        · subst h3
          have hesc : jsonEscapeChar '\n' = ['\\', 'n'] := by decide
          rw [hesc]
          simp only [List.cons_append, List.nil_append]
          rw [parseJStringBody.eq_def]
          simp [ih]
        · 
          by_cases h4 : c = '\r'
          · subst h4
            have hesc : jsonEscapeChar '\r' = ['\\', 'r'] := by decide
            rw [hesc]
            simp only [List.cons_append, List.nil_append]
            rw [parseJStringBody.eq_def]
            simp [ih]
          · 
            by_cases h5 : c = '\t'
            · subst h5
              have hesc : jsonEscapeChar '\t' = ['\\', 't'] := by decide
              rw [hesc]
              simp only [List.cons_append, List.nil_append]
              rw [parseJStringBody.eq_def]
              simp [ih]
            · 
              by_cases h6 : c = '\x08'
              · subst h6
                have hesc : jsonEscapeChar '\x08' = ['\\', 'b'] := by decide
                rw [hesc]
                simp only [List.cons_append, List.nil_append]
                rw [parseJStringBody.eq_def]
                simp [ih]
              · 
                by_cases h7 : c = '\x0c'
                · subst h7
                  have hesc : jsonEscapeChar '\x0c' = ['\\', 'f'] := by decide
                  rw [hesc]
                  simp only [List.cons_append, List.nil_append]
                  rw [parseJStringBody.eq_def]
                  simp [ih]
                · by_cases h8 : c.toNat < 32
                  · have hesc : jsonEscapeChar c = ['\\', 'u', '0', '0',
                        hexDigitL (c.toNat / 16), hexDigitL (c.toNat % 16)] := by
                      unfold jsonEscapeChar
                      rw [if_neg h1, if_neg h2, if_neg h3, if_neg h4,
                        if_neg h5, if_neg h6, if_neg h7, if_pos h8]
                    rw [hesc]
                    have e0 : hexValC '0' = some 0 := by decide
                    have e1 := hexDigitL_spec (c.toNat / 16) (by omega)
                    have e2 := hexDigitL_spec (c.toNat % 16) (by omega)
                    simp only [List.cons_append, List.nil_append]
                    rw [parseJStringBody.eq_def]
                    simp [e0, e1, e2, ih]
                    have e3 : c.toNat / 16 * 16 + c.toNat % 16 =
                        c.toNat := by omega
                    rw [e3, Char.ofNat_toNat]
                  · have hgen : jsonEscapeChar c = [c] := by
                      unfold jsonEscapeChar
                      rw [if_neg h1, if_neg h2, if_neg h3, if_neg h4,
                        if_neg h5, if_neg h6, if_neg h7, if_neg h8]
                    rw [hgen]
                    simp only [List.singleton_append]
                    rw [parseJStringBody.eq_def]
                    simp [h1, h2, ih]

theorem printJVal_head (v : JVal) :
    ∃ c t, printJVal v = c :: t ∧ c ≠ ']' ∧ c ≠ '\x7d' := by
  cases v with
  | jnull => exact ⟨'n', toL "ull", rfl, by decide, by decide⟩
  | jbool b =>
    cases b with
    | true => exact ⟨'t', toL "rue", rfl, by decide, by decide⟩
    | false => exact ⟨'f', toL "alse", rfl, by decide, by decide⟩
  | jnum n =>
    by_cases hn : n < 0
    · exact ⟨'-', natDigits n.natAbs,
        by simp [printJVal, printJInt, hn], by decide, by decide⟩
    · obtain ⟨c, t, he, hd⟩ := natDigits_head n.toNat
      have h := isDigit_ne_special hd
      exact ⟨c, t, by simp [printJVal, printJInt, hn, he],
        h.2.2.2.2.2.2.2.1, h.2.2.2.2.2.2.2.2.1⟩
  | jstr s =>
    exact ⟨'\"', s.flatMap jsonEscapeChar ++ ['\"'], rfl, by decide,
      by decide⟩
  | jarr l =>
    exact ⟨'[', printArrItems l ++ [']'], rfl, by decide, by decide⟩
  | jobj l =>
    exact ⟨'\x7b', printObjItems l ++ ['\x7d'], rfl, by decide, by decide⟩

theorem printJVal_jarr_len (l : List JVal) :
    (printJVal (JVal.jarr l)).length = (printArrItems l).length + 2 := by
  show ('[' :: (printArrItems l ++ [']'])).length = _
  simp

theorem printJVal_jobj_len (l : List (List Char × JVal)) :
    (printJVal (JVal.jobj l)).length = (printObjItems l).length + 2 := by
  show ('\x7b' :: (printObjItems l ++ ['\x7d'])).length = _
  simp

/-- The fueled parser inverts the printer: values parse back exactly
(when the following input does not start with a digit, which would extend
a number), and so do nonempty printed item lists up to their closer. -/
theorem parseJ_roundtrip : ∀ fuel : Nat,
    (∀ v rest, (printJVal v).length ≤ fuel → headNotDigit rest →
      parseJVal fuel (printJVal v ++ rest) = some (v, rest)) ∧
    (∀ l rest, l ≠ [] → (printArrItems l).length + 1 ≤ fuel →
      parseJArrItems fuel (printArrItems l ++ ']' :: rest) = some (l, rest)) ∧
    (∀ l rest, l ≠ [] → (printObjItems l).length + 1 ≤ fuel →
      parseJObjItems fuel (printObjItems l ++ '\x7d' :: rest) =
        some (l, rest)) := by
  intro fuel
  induction fuel with
  | zero =>
    refine ⟨?_, ?_, ?_⟩
    · intro v rest hlen _
      obtain ⟨c, t, he, _, _⟩ := printJVal_head v
      rw [he] at hlen
      simp at hlen
    · intro l rest _ hlen
      omega
    · intro l rest _ hlen
      omega
  | succ f ih =>
    obtain ⟨ihv, iha, iho⟩ := ih
    refine ⟨?_, ?_, ?_⟩
    · intro v rest hlen hnd
      cases v with
      | jnull =>
        have h0 : printJVal JVal.jnull ++ rest = 'n' :: (toL "ull" ++ rest) :=
          rfl
        rw [h0, parseJVal.eq_def]
        dsimp only
        rw [if_pos rfl, expectLit_append]
        rfl
      | jbool b =>
        cases b with
        | true =>
          have h0 : printJVal (JVal.jbool true) ++ rest =
              't' :: (toL "rue" ++ rest) := rfl
          rw [h0, parseJVal.eq_def]
          dsimp only
          rw [if_neg (by decide), if_pos rfl, expectLit_append]
          rfl
        | false =>
          have h0 : printJVal (JVal.jbool false) ++ rest =
              'f' :: (toL "alse" ++ rest) := rfl
          rw [h0, parseJVal.eq_def]
          dsimp only
          rw [if_neg (by decide), if_neg (by decide), if_pos rfl,
            expectLit_append]
          rfl
      | jnum n =>
        by_cases hn : n < 0
        · have hpr : printJVal (JVal.jnum n) = '-' :: natDigits n.natAbs := by
            show printJInt n = _
            simp [printJInt, hn]
          rw [hpr]
          simp only [List.cons_append]
          rw [parseJVal.eq_def]
          dsimp only
          rw [if_neg (by decide), if_neg (by decide), if_neg (by decide),
            if_neg (by decide), if_neg (by decide), if_neg (by decide),
            if_pos rfl]
          rw [parseNatPart_natDigits hnd]
          simp only [Option.map_some']
          have heq : -((n.natAbs : Nat) : Int) = n := by omega
          rw [heq]
        · have hpr : printJVal (JVal.jnum n) = natDigits n.toNat := by
            show printJInt n = _
            simp [printJInt, hn]
          obtain ⟨c, t, he, hd⟩ := natDigits_head n.toNat
          have hsp := isDigit_ne_special hd
          have hppd := parseNatPart_natDigits hnd n.toNat
          rw [he] at hppd
          simp only [List.cons_append] at hppd
          rw [hpr, he]
          simp only [List.cons_append]
          rw [parseJVal.eq_def]
          dsimp only
          rw [if_neg hsp.1, if_neg hsp.2.1, if_neg hsp.2.2.1,
            if_neg hsp.2.2.2.1, if_neg hsp.2.2.2.2.1,
            if_neg hsp.2.2.2.2.2.1, if_neg hsp.2.2.2.2.2.2.1, if_pos hd]
          rw [hppd]
          simp only [Option.map_some']
          have heq : ((n.toNat : Nat) : Int) = n := by omega
          rw [heq]
      | jstr s =>
        have h0 : printJVal (JVal.jstr s) ++ rest =
            '\"' :: (s.flatMap jsonEscapeChar ++ '\"' :: rest) := by
          show ('\"' :: (s.flatMap jsonEscapeChar ++ ['\"'])) ++ rest = _
          simp
        rw [h0, parseJVal.eq_def]
        dsimp only
        rw [if_neg (by decide), if_neg (by decide), if_neg (by decide),
          if_pos rfl]
        rw [parseJStringBody_roundtrip]
        rfl
      | jarr l =>
        cases l with
        | nil =>
          have h0 : printJVal (JVal.jarr []) ++ rest = '[' :: ']' :: rest :=
            rfl
          rw [h0, parseJVal.eq_def]
          dsimp only
          rw [if_neg (by decide), if_neg (by decide), if_neg (by decide),
            if_neg (by decide), if_pos rfl]
          rw [if_pos (show (']' :: rest).head? = some ']' from rfl)]
          rfl
        | cons v l' =>
          obtain ⟨c0, t0, he0, hne1, hne2⟩ := printJVal_head v
          have hhead : ∃ tt, printArrItems (v :: l') = c0 :: tt := by
            cases l' with
            | nil => exact ⟨t0, by simp [printArrItems, he0]⟩
            | cons w l'' =>
              exact ⟨t0 ++ ',' :: printArrItems (w :: l''),
                by simp [printArrItems, he0]⟩
          obtain ⟨tt, htt⟩ := hhead
          have h0 : printJVal (JVal.jarr (v :: l')) ++ rest =
              '[' :: (printArrItems (v :: l') ++ ']' :: rest) := by
            show ('[' :: (printArrItems (v :: l') ++ [']'])) ++ rest = _
            simp
          have hlen2 : (printArrItems (v :: l')).length + 1 ≤ f := by
            rw [printJVal_jarr_len] at hlen
            omega
          rw [h0, parseJVal.eq_def]
          dsimp only
          rw [if_neg (by decide), if_neg (by decide), if_neg (by decide),
            if_neg (by decide), if_pos rfl]
          have hcond : ¬ ((printArrItems (v :: l') ++ ']' :: rest).head? =
              some ']') := by
            rw [htt]
            simp only [List.cons_append, List.head?_cons]
            intro hcc
            exact hne1 (Option.some_inj.1 hcc)
          rw [if_neg hcond]
          rw [iha (v :: l') rest (by simp) hlen2]
          rfl
      | jobj l =>
        cases l with
        | nil =>
          have h0 : printJVal (JVal.jobj []) ++ rest =
              '\x7b' :: '\x7d' :: rest := rfl
          rw [h0, parseJVal.eq_def]
          dsimp only
          rw [if_neg (by decide), if_neg (by decide), if_neg (by decide),
            if_neg (by decide), if_neg (by decide), if_pos rfl]
          rw [if_pos (show ('\x7d' :: rest).head? = some '\x7d' from rfl)]
          rfl
        | cons kv l' =>
          have hhead : ∃ tt, printObjItems (kv :: l') = '\"' :: tt := by
            cases l' with
            | nil =>
              refine ⟨kv.1.flatMap jsonEscapeChar ++ ['\"'] ++
                ':' :: printJVal kv.2, ?_⟩
              show printJString kv.1 ++ ':' :: printJVal kv.2 = _
              simp [printJString]
            | cons kw l'' =>
              refine ⟨kv.1.flatMap jsonEscapeChar ++ ['\"'] ++
                ':' :: printJVal kv.2 ++ ',' :: printObjItems (kw :: l''), ?_⟩
              show (printJString kv.1 ++ ':' :: printJVal kv.2) ++
                ',' :: printObjItems (kw :: l'') = _
              simp [printJString]
          obtain ⟨tt, htt⟩ := hhead
          have h0 : printJVal (JVal.jobj (kv :: l')) ++ rest =
              '\x7b' :: (printObjItems (kv :: l') ++ '\x7d' :: rest) := by
            show ('\x7b' :: (printObjItems (kv :: l') ++ ['\x7d'])) ++ rest = _
            simp
          have hlen2 : (printObjItems (kv :: l')).length + 1 ≤ f := by
            rw [printJVal_jobj_len] at hlen
            omega
          rw [h0, parseJVal.eq_def]
          dsimp only
          rw [if_neg (by decide), if_neg (by decide), if_neg (by decide),
            if_neg (by decide), if_neg (by decide), if_pos rfl]
          have hcond : ¬ ((printObjItems (kv :: l') ++ '\x7d' :: rest).head? =
              some '\x7d') := by
            rw [htt]
            simp only [List.cons_append, List.head?_cons]
            intro hcc
            exact absurd (Option.some_inj.1 hcc) (by decide)
          rw [if_neg hcond]
          rw [iho (kv :: l') rest (by simp) hlen2]
          rfl
    · intro l rest hne hlen
      cases l with
      | nil => exact absurd rfl hne
      | cons v l' =>
        cases l' with
        | nil =>
          have hpa : printArrItems [v] = printJVal v := by
            simp [printArrItems]
          have hlv : (printJVal v).length ≤ f := by
            rw [hpa] at hlen
            omega
          have hv := ihv v (']' :: rest) hlv (by exact rfl)
          rw [hpa, parseJArrItems.eq_def]
          dsimp only
          rw [hv]
          simp
        | cons w l'' =>
          have hpa : printArrItems (v :: w :: l'') =
              printJVal v ++ ',' :: printArrItems (w :: l'') := by
            simp [printArrItems]
          have hlv : (printJVal v).length ≤ f ∧
              (printArrItems (w :: l'')).length + 1 ≤ f := by
            rw [hpa] at hlen
            simp only [List.length_append, List.length_cons] at hlen
            omega
          have hv := ihv v (',' :: (printArrItems (w :: l'') ++ ']' :: rest))
            hlv.1 (by exact rfl)
          have hrec := iha (w :: l'') rest (by simp) hlv.2
          rw [hpa]
          have hassoc : (printJVal v ++ ',' :: printArrItems (w :: l'')) ++
              ']' :: rest =
              printJVal v ++
                (',' :: (printArrItems (w :: l'') ++ ']' :: rest)) := by
            simp
          rw [hassoc, parseJArrItems.eq_def]
          dsimp only
          rw [hv]
          simp [hrec]
    · intro l rest hne hlen
      cases l with
      | nil => exact absurd rfl hne
      | cons kv l' =>
        obtain ⟨k, v⟩ := kv
        cases l' with
        | nil =>
          have hpa : printObjItems [(k, v)] ++ '\x7d' :: rest =
              '\"' :: (k.flatMap jsonEscapeChar ++
                '\"' :: (':' :: (printJVal v ++ '\x7d' :: rest))) := by
            show (printJString k ++ ':' :: printJVal v) ++ '\x7d' :: rest = _
            simp [printJString]
          have hlv : (printJVal v).length ≤ f := by
            have : printObjItems [(k, v)] =
                printJString k ++ ':' :: printJVal v := by
              simp [printObjItems]
            rw [this] at hlen
            simp only [List.length_append, List.length_cons] at hlen
            omega
          have hv := ihv v ('\x7d' :: rest) hlv (by exact rfl)
          rw [hpa, parseJObjItems.eq_def]
          simp [parseJStringBody_roundtrip, hv]
        | cons kw l'' =>
          have hpa : printObjItems ((k, v) :: kw :: l'') ++ '\x7d' :: rest =
              '\"' :: (k.flatMap jsonEscapeChar ++
                '\"' :: (':' :: (printJVal v ++
                  ',' :: (printObjItems (kw :: l'') ++ '\x7d' :: rest)))) := by
            show ((printJString k ++ ':' :: printJVal v) ++
              ',' :: printObjItems (kw :: l'')) ++ '\x7d' :: rest = _
            simp [printJString]
          have hlv : (printJVal v).length ≤ f ∧
              (printObjItems (kw :: l'')).length + 1 ≤ f := by
            have : printObjItems ((k, v) :: kw :: l'') =
                (printJString k ++ ':' :: printJVal v) ++
                  ',' :: printObjItems (kw :: l'') := by
              simp [printObjItems]
            rw [this] at hlen
            simp only [List.length_append, List.length_cons] at hlen
            omega
          have hv := ihv v
            (',' :: (printObjItems (kw :: l'') ++ '\x7d' :: rest)) hlv.1
            (by exact rfl)
          have hrec := iho (kw :: l'') rest (by simp) hlv.2
          rw [hpa, parseJObjItems.eq_def]
          simp [parseJStringBody_roundtrip, hv, hrec]

/-- `JSON.parse` inverts `JSON.stringify`. -/
theorem jsonParseFull_printJVal (v : JVal) :
    jsonParseFull (printJVal v) = some v := by
  unfold jsonParseFull
  have h := (parseJ_roundtrip ((printJVal v).length + 1)).1 v []
    (by omega) trivial
  rw [List.append_nil] at h
  rw [h]

/-! ## UTF-8 (used by `encodeURIComponent`/`decodeURIComponent`) -/

/-- UTF-8 bytes of one character. -/
def utf8Encode (c : Char) : List Nat :=
  if c.toNat < 128 then [c.toNat]
  else if c.toNat < 2048 then [192 + c.toNat / 64, 128 + c.toNat % 64]
  else if c.toNat < 65536 then
    [224 + c.toNat / 4096, 128 + c.toNat / 64 % 64, 128 + c.toNat % 64]
  else
    [240 + c.toNat / 262144, 128 + c.toNat / 4096 % 64,
      128 + c.toNat / 64 % 64, 128 + c.toNat % 64]

/-- Whether a byte is a UTF-8 continuation byte. -/
def isCont (b : Nat) : Prop := 128 ≤ b ∧ b < 192

instance (b : Nat) : Decidable (isCont b) := by unfold isCont; infer_instance

theorem char_toNat_lt (c : Char) : c.toNat < 1114112 := by
  have h := c.valid
  rcases h with h | ⟨_, h2⟩
  · have : c.toNat < 55296 := h
    omega
  · exact h2

theorem char_not_surrogate (c : Char) :
    c.toNat < 55296 ∨ 57344 ≤ c.toNat := by
  have h := c.valid
  rcases h with h | ⟨h1, _⟩
  · exact Or.inl h
  · exact Or.inr h1

theorem utf8Encode_lt (c : Char) : ∀ b ∈ utf8Encode c, b < 256 := by
  have hc := char_toNat_lt c
  unfold utf8Encode
  split_ifs with h1 h2 h3 <;> intro b hb <;> simp at hb <;> omega

/-! ## `encodeURIComponent` / `decodeURIComponent`

`encodeURIComponent` leaves the unreserved characters
`A-Z a-z 0-9 - _ . ! ~ * ' ( )` unchanged and replaces every other
character by the `%XX` (uppercase hex) encoding of its UTF-8 bytes.
`decodeURIComponent` inverts this, throwing (`none`) on malformed
percent sequences. -/

/-- Characters `encodeURIComponent` does not escape. -/
def isUnreservedByte (b : Nat) : Bool :=
  (65 ≤ b && b ≤ 90) || (97 ≤ b && b ≤ 122) || (48 ≤ b && b ≤ 57) ||
  b == 45 || b == 95 || b == 46 || b == 33 || b == 126 ||
  b == 42 || b == 39 || b == 40 || b == 41

theorem isUnreservedByte_range (b : Nat) (h : isUnreservedByte b = true) :
    b < 128 ∧ b ≠ 37 := by
  unfold isUnreservedByte at h
  simp only [Bool.or_eq_true, Bool.and_eq_true, decide_eq_true_eq,
    beq_iff_eq] at h
  omega

def encodeURIComponentChar (c : Char) : List Char :=
  if isUnreservedByte c.toNat then [c]
  else (utf8Encode c).flatMap fun b => ['%', hexDigitU (b / 16), hexDigitU (b % 16)]

def encodeURIComponentL (s : List Char) : List Char :=
  s.flatMap encodeURIComponentChar

/-- One `%XX` escape: its byte value and the rest of the input. -/
def readEsc : List Char → Option (Nat × List Char)
  | '%' :: h1 :: h2 :: r =>
    match hexValC h1, hexValC h2 with
    | some v1, some v2 => some (v1 * 16 + v2, r)
    | _, _ => none
  | _ => none

/-- `decodeURIComponent` (the ECMAScript `Decode` operation): ordinary
characters pass through unchanged; a `%XX` escape with the high bit set
must begin a complete, valid UTF-8 sequence whose continuation bytes are
themselves `%XX` escapes. Overlong encodings, surrogate code points and
values above U+10FFFF throw `URIError` (`none`). One unit of fuel is
spent per decoded character, so the input length is always enough. -/
def decodeURICompAux : Nat → List Char → Option (List Char)
  | _, [] => some []
  | 0, _ :: _ => none
  | fuel + 1, c :: r =>
    if c = '%' then
      match readEsc (c :: r) with
      | none => none
      | some (b, r1) =>
        if b < 128 then
          (decodeURICompAux fuel r1).map fun l => Char.ofNat b :: l
        else if b < 192 then none
        else if b < 224 then
          match readEsc r1 with
          | none => none
          | some (b2, r2) =>
            if isCont b2 ∧ 194 ≤ b then
              (decodeURICompAux fuel r2).map fun l =>
                Char.ofNat ((b - 192) * 64 + (b2 - 128)) :: l
            else none
        else if b < 240 then
          match readEsc r1 with
          | none => none
          | some (b2, r2) =>
            match readEsc r2 with
            | none => none
            | some (b3, r3) =>
              if isCont b2 ∧ isCont b3 ∧
                  2048 ≤ (b - 224) * 4096 + (b2 - 128) * 64 + (b3 - 128) ∧
                  ¬(55296 ≤ (b - 224) * 4096 + (b2 - 128) * 64 + (b3 - 128) ∧
                    (b - 224) * 4096 + (b2 - 128) * 64 + (b3 - 128) < 57344) then
                (decodeURICompAux fuel r3).map fun l =>
                  Char.ofNat ((b - 224) * 4096 + (b2 - 128) * 64 +
                    (b3 - 128)) :: l
              else none
        else if b < 248 then
          match readEsc r1 with
          | none => none
          | some (b2, r2) =>
            match readEsc r2 with
            | none => none
            | some (b3, r3) =>
              match readEsc r3 with
              | none => none
              | some (b4, r4) =>
                if isCont b2 ∧ isCont b3 ∧ isCont b4 ∧
                    65536 ≤ (b - 240) * 262144 + (b2 - 128) * 4096 +
                      (b3 - 128) * 64 + (b4 - 128) ∧
                    (b - 240) * 262144 + (b2 - 128) * 4096 +
                      (b3 - 128) * 64 + (b4 - 128) < 1114112 then
                  (decodeURICompAux fuel r4).map fun l =>
                    Char.ofNat ((b - 240) * 262144 + (b2 - 128) * 4096 +
                      (b3 - 128) * 64 + (b4 - 128)) :: l
                else none
        else none
    else (decodeURICompAux fuel r).map fun l => c :: l

def decodeURIComponentL (s : List Char) : Option (List Char) :=
  decodeURICompAux s.length s

theorem readEsc_encTriple (b : Nat) (hb : b < 256) (r : List Char) :
    readEsc ('%' :: hexDigitU (b / 16) :: hexDigitU (b % 16) :: r) =
      some (b, r) := by
  rw [readEsc.eq_def]
  simp only
  rw [hexDigitU_spec (b / 16) (by omega), hexDigitU_spec (b % 16) (by omega)]
  simp only
  have e : b / 16 * 16 + b % 16 = b := by omega
  rw [e]

theorem encodeURIComponentChar_len (c : Char) :
    1 ≤ (encodeURIComponentChar c).length := by
  unfold encodeURIComponentChar
  by_cases hu : isUnreservedByte c.toNat
  · rw [if_pos hu]; simp
  · rw [if_neg hu]
    unfold utf8Encode
    split_ifs <;> simp

theorem decodeURICompAux_encode (s : List Char) :
    ∀ fuel, s.length ≤ fuel →
      decodeURICompAux fuel (encodeURIComponentL s) = some s := by
  induction s with
  | nil =>
    intro fuel _
    cases fuel <;> rfl
  | cons c s ih =>
    intro fuel hf
    have hfuel : ∃ f, fuel = f + 1 := by
      cases fuel with
      | zero => simp at hf
      | succ f => exact ⟨f, rfl⟩
    obtain ⟨f, rfl⟩ := hfuel
    have hs : s.length ≤ f := by simp at hf; omega
    rw [show encodeURIComponentL (c :: s) =
      encodeURIComponentChar c ++ encodeURIComponentL s from
      List.flatMap_cons c s encodeURIComponentChar]
    unfold encodeURIComponentChar
    by_cases hu : isUnreservedByte c.toNat
    · rw [if_pos hu]
      show decodeURICompAux (f + 1) (c :: encodeURIComponentL s) = _
      rw [decodeURICompAux.eq_def]
      dsimp only
      rw [if_neg (fun he => (isUnreservedByte_range _ hu).2 (by rw [he]; rfl))]
      rw [ih f hs]
      rfl
    · rw [if_neg hu]
      have hcv := char_toNat_lt c
      by_cases h1 : c.toNat < 128
      · rw [show utf8Encode c = [c.toNat] from by
          unfold utf8Encode; rw [if_pos h1]]
        show decodeURICompAux (f + 1) ('%' :: hexDigitU (c.toNat / 16) ::
          hexDigitU (c.toNat % 16) :: encodeURIComponentL s) = _
        rw [decodeURICompAux.eq_def]
        dsimp only
        rw [if_pos rfl, readEsc_encTriple c.toNat (by omega)]
        dsimp only
        rw [if_pos h1, ih f hs, Char.ofNat_toNat]
        rfl
      · by_cases h2 : c.toNat < 2048
        · rw [show utf8Encode c = [192 + c.toNat / 64, 128 + c.toNat % 64] from by
            unfold utf8Encode; rw [if_neg h1, if_pos h2]]
          show decodeURICompAux (f + 1) ('%' :: hexDigitU ((192 + c.toNat / 64) / 16) ::
            hexDigitU ((192 + c.toNat / 64) % 16) ::
            ('%' :: hexDigitU ((128 + c.toNat % 64) / 16) ::
              hexDigitU ((128 + c.toNat % 64) % 16) :: encodeURIComponentL s)) = _
          rw [decodeURICompAux.eq_def]
          dsimp only
          rw [if_pos rfl, readEsc_encTriple (192 + c.toNat / 64) (by omega)]
          dsimp only
          rw [if_neg (by omega), if_neg (by omega), if_pos (by omega),
            readEsc_encTriple (128 + c.toNat % 64) (by omega)]
          dsimp only
          rw [if_pos (by unfold isCont; omega)]
          have e : (192 + c.toNat / 64 - 192) * 64 + (128 + c.toNat % 64 - 128) =
              c.toNat := by omega
          rw [e, ih f hs, Char.ofNat_toNat]
          rfl
        · by_cases h3 : c.toNat < 65536
          · rw [show utf8Encode c = [224 + c.toNat / 4096, 128 + c.toNat / 64 % 64,
              128 + c.toNat % 64] from by
              unfold utf8Encode; rw [if_neg h1, if_neg h2, if_pos h3]]
            show decodeURICompAux (f + 1)
              ('%' :: hexDigitU ((224 + c.toNat / 4096) / 16) ::
                hexDigitU ((224 + c.toNat / 4096) % 16) ::
              ('%' :: hexDigitU ((128 + c.toNat / 64 % 64) / 16) ::
                hexDigitU ((128 + c.toNat / 64 % 64) % 16) ::
              ('%' :: hexDigitU ((128 + c.toNat % 64) / 16) ::
                hexDigitU ((128 + c.toNat % 64) % 16) ::
                encodeURIComponentL s))) = _
            rw [decodeURICompAux.eq_def]
            dsimp only
            rw [if_pos rfl, readEsc_encTriple (224 + c.toNat / 4096) (by omega)]
            dsimp only
            rw [if_neg (by omega), if_neg (by omega), if_neg (by omega),
              if_pos (by omega),
              readEsc_encTriple (128 + c.toNat / 64 % 64) (by omega)]
            dsimp only
            rw [readEsc_encTriple (128 + c.toNat % 64) (by omega)]
            dsimp only
            rw [if_pos (by
              have hcs := char_not_surrogate c
              unfold isCont
              omega)]
            have e : (224 + c.toNat / 4096 - 224) * 4096 +
                (128 + c.toNat / 64 % 64 - 128) * 64 +
                (128 + c.toNat % 64 - 128) = c.toNat := by omega
            rw [e, ih f hs, Char.ofNat_toNat]
            rfl
          · rw [show utf8Encode c = [240 + c.toNat / 262144,
              128 + c.toNat / 4096 % 64, 128 + c.toNat / 64 % 64,
              128 + c.toNat % 64] from by
              unfold utf8Encode; rw [if_neg h1, if_neg h2, if_neg h3]]
            show decodeURICompAux (f + 1)
              ('%' :: hexDigitU ((240 + c.toNat / 262144) / 16) ::
                hexDigitU ((240 + c.toNat / 262144) % 16) ::
              ('%' :: hexDigitU ((128 + c.toNat / 4096 % 64) / 16) ::
                hexDigitU ((128 + c.toNat / 4096 % 64) % 16) ::
              ('%' :: hexDigitU ((128 + c.toNat / 64 % 64) / 16) ::
                hexDigitU ((128 + c.toNat / 64 % 64) % 16) ::
              ('%' :: hexDigitU ((128 + c.toNat % 64) / 16) ::
                hexDigitU ((128 + c.toNat % 64) % 16) ::
                encodeURIComponentL s)))) = _
            rw [decodeURICompAux.eq_def]
            dsimp only
            rw [if_pos rfl, readEsc_encTriple (240 + c.toNat / 262144) (by omega)]
            dsimp only
            rw [if_neg (by omega), if_neg (by omega), if_neg (by omega),
              if_neg (by omega), if_pos (by omega),
              readEsc_encTriple (128 + c.toNat / 4096 % 64) (by omega)]
            dsimp only
            rw [readEsc_encTriple (128 + c.toNat / 64 % 64) (by omega)]
            dsimp only
            rw [readEsc_encTriple (128 + c.toNat % 64) (by omega)]
            dsimp only
            rw [if_pos (by unfold isCont; omega)]
            have e : (240 + c.toNat / 262144 - 240) * 262144 +
                (128 + c.toNat / 4096 % 64 - 128) * 4096 +
                (128 + c.toNat / 64 % 64 - 128) * 64 +
                (128 + c.toNat % 64 - 128) = c.toNat := by omega
            rw [e, ih f hs, Char.ofNat_toNat]
            rfl

theorem encodeURIComponentL_len (s : List Char) :
    s.length ≤ (encodeURIComponentL s).length := by
  induction s with
  | nil => simp [encodeURIComponentL]
  | cons c s ih =>
    have h1 := encodeURIComponentChar_len c
    rw [show encodeURIComponentL (c :: s) =
      encodeURIComponentChar c ++ encodeURIComponentL s from
      List.flatMap_cons c s encodeURIComponentChar]
    rw [List.length_append, List.length_cons]
    omega

theorem decodeURIComponent_encode (s : List Char) :
    decodeURIComponentL (encodeURIComponentL s) = some s := by
  unfold decodeURIComponentL
  exact decodeURICompAux_encode s _ (encodeURIComponentL_len s)

/-! ## `btoa` / `atob` (base64 over byte strings)

`btoa` maps a latin-1 string (each char ≤ 255) to its base64 encoding;
`atob` inverts it. We model both over byte lists. -/

def b64Char (n : Nat) : Char :=
  if n < 26 then Char.ofNat (65 + n)
  else if n < 52 then Char.ofNat (97 + n - 26)
  else if n < 62 then Char.ofNat (48 + n - 52)
  else if n = 62 then '+'
  else '/'

def b64Val (c : Char) : Option Nat :=
  if 65 ≤ c.toNat ∧ c.toNat ≤ 90 then some (c.toNat - 65)
  else if 97 ≤ c.toNat ∧ c.toNat ≤ 122 then some (c.toNat - 97 + 26)
  else if 48 ≤ c.toNat ∧ c.toNat ≤ 57 then some (c.toNat - 48 + 52)
  else if c = '+' then some 62
  else if c = '/' then some 63
  else none

theorem b64Val_b64Char : ∀ n < 64, b64Val (b64Char n) = some n := by decide

theorem b64Char_ne_pad : ∀ n < 64, b64Char n ≠ '=' := by decide

/-- `btoa`: encode bytes three at a time into four base64 characters,
padding the last group with `=`. -/
def base64Encode : List Nat → List Char
  | [] => []
  | [b1] =>
    [b64Char (b1 / 4), b64Char (b1 % 4 * 16), '=', '=']
  | [b1, b2] =>
    [b64Char (b1 / 4), b64Char (b1 % 4 * 16 + b2 / 16), b64Char (b2 % 16 * 4), '=']
  | b1 :: b2 :: b3 :: bs =>
    b64Char (b1 / 4) :: b64Char (b1 % 4 * 16 + b2 / 16) ::
    b64Char (b2 % 16 * 4 + b3 / 64) :: b64Char (b3 % 64) :: base64Encode bs

/-- ASCII whitespace, stripped by `atob` before decoding. -/
def isB64Ws (c : Char) : Prop :=
  c = '\t' ∨ c = '\n' ∨ c = '\x0c' ∨ c = '\r' ∨ c = ' '

instance (c : Char) : Decidable (isB64Ws c) := by
  unfold isB64Ws; infer_instance

def atobStrip (s : List Char) : List Char :=
  s.filter fun c => decide (¬ isB64Ws c)

/-- Remove up to two trailing `=` when the length is a multiple of four
(forgiving-base64 allows padding only there). -/
def atobUnpad (t : List Char) : List Char :=
  if t.length % 4 = 0 then
    if t.reverse.head? = some '=' then
      if t.reverse.tail.head? = some '=' then t.reverse.tail.tail.reverse
      else t.reverse.tail.reverse
    else t
  else t

/-- Decode base64 data four characters at a time; a final group of two or
three characters contributes one or two bytes, the leftover low bits being
discarded (as forgiving-base64 does); a leftover single character or any
character outside the alphabet is an error. -/
def b64Quads : List Char → Option (List Nat)
  | [] => some []
  | [c1, c2] =>
    match b64Val c1, b64Val c2 with
    | some v1, some v2 => some [v1 * 4 + v2 / 16]
    | _, _ => none
  | [c1, c2, c3] =>
    match b64Val c1, b64Val c2, b64Val c3 with
    | some v1, some v2, some v3 =>
      some [v1 * 4 + v2 / 16, v2 % 16 * 16 + v3 / 4]
    | _, _, _ => none
  | c1 :: c2 :: c3 :: c4 :: rest =>
    match b64Val c1, b64Val c2, b64Val c3, b64Val c4 with
    | some v1, some v2, some v3, some v4 =>
      (b64Quads rest).map fun l =>
        (v1 * 4 + v2 / 16) :: (v2 % 16 * 16 + v3 / 4) :: (v3 % 4 * 64 + v4) :: l
    | _, _, _, _ => none
  | [_] => none

/-- `atob` (WHATWG forgiving-base64): strip ASCII whitespace, drop up to
two trailing `=` when the stripped length is a multiple of four, then
decode; anything else that remains malformed is an
`InvalidCharacterError` (`none`). -/
def atobDecode (s : List Char) : Option (List Nat) :=
  b64Quads (atobUnpad (atobStrip s))

/-- The base64 characters of `base64Encode` without the `=` padding. -/
def base64Core : List Nat → List Char
  | [] => []
  | [b1] => [b64Char (b1 / 4), b64Char (b1 % 4 * 16)]
  | [b1, b2] =>
    [b64Char (b1 / 4), b64Char (b1 % 4 * 16 + b2 / 16), b64Char (b2 % 16 * 4)]
  | b1 :: b2 :: b3 :: bs =>
    b64Char (b1 / 4) :: b64Char (b1 % 4 * 16 + b2 / 16) ::
    b64Char (b2 % 16 * 4 + b3 / 64) :: b64Char (b3 % 64) :: base64Core bs

/-- The `=` padding of `base64Encode`. -/
def base64Pad : List Nat → List Char
  | [] => []
  | [_] => ['=', '=']
  | [_, _] => ['=']
  | _ :: _ :: _ :: bs => base64Pad bs

theorem base64Encode_core_pad (bs : List Nat) :
    base64Encode bs = base64Core bs ++ base64Pad bs := by
  induction bs using base64Core.induct with
  | case1 => rfl
  | case2 b1 => rfl
  | case3 b1 b2 => rfl
  | case4 b1 b2 b3 bs ih =>
    show base64Encode (b1 :: b2 :: b3 :: bs) = _
    rw [base64Encode, base64Core, base64Pad, ih]
    simp

theorem base64Encode_len (bs : List Nat) :
    (base64Encode bs).length % 4 = 0 := by
  induction bs using base64Core.induct with
  | case1 => rfl
  | case2 b1 => simp [base64Encode]
  | case3 b1 b2 => simp [base64Encode]
  | case4 b1 b2 b3 bs ih =>
    rw [base64Encode]
    simp only [List.length_cons]
    omega

theorem base64Core_mem (bs : List Nat) (h : ∀ b ∈ bs, b < 256) :
    ∀ c ∈ base64Core bs, ∃ n, n < 64 ∧ c = b64Char n := by
  induction bs using base64Core.induct with
  | case1 => intro c hc; exact absurd hc (List.not_mem_nil c)
  | case2 b1 =>
    intro c hc
    have hb1 : b1 < 256 := h b1 (by simp)
    rw [base64Core] at hc
    simp only [List.mem_cons, List.not_mem_nil, or_false] at hc
    rcases hc with rfl | rfl
    · exact ⟨b1 / 4, by omega, rfl⟩
    · exact ⟨b1 % 4 * 16, by omega, rfl⟩
  | case3 b1 b2 =>
    intro c hc
    have hb1 : b1 < 256 := h b1 (by simp)
    have hb2 : b2 < 256 := h b2 (by simp)
    rw [base64Core] at hc
    simp only [List.mem_cons, List.not_mem_nil, or_false] at hc
    rcases hc with rfl | rfl | rfl
    · exact ⟨b1 / 4, by omega, rfl⟩
    · exact ⟨b1 % 4 * 16 + b2 / 16, by omega, rfl⟩
    · exact ⟨b2 % 16 * 4, by omega, rfl⟩
  | case4 b1 b2 b3 bs ih =>
    intro c hc
    have hb1 : b1 < 256 := h b1 (by simp)
    have hb2 : b2 < 256 := h b2 (by simp)
    have hb3 : b3 < 256 := h b3 (by simp)
    rw [base64Core] at hc
    simp only [List.mem_cons] at hc
    rcases hc with rfl | rfl | rfl | rfl | hc
    · exact ⟨b1 / 4, by omega, rfl⟩
    · exact ⟨b1 % 4 * 16 + b2 / 16, by omega, rfl⟩
    · exact ⟨b2 % 16 * 4 + b3 / 64, by omega, rfl⟩
    · exact ⟨b3 % 64, by omega, rfl⟩
    · exact ih (fun x hx => h x (by simp [hx])) c hc

theorem base64Pad_mem (bs : List Nat) (c : Char) (h : c ∈ base64Pad bs) :
    c = '=' := by
  induction bs using base64Pad.induct with
  | case1 => exact absurd h (List.not_mem_nil c)
  | case2 b1 =>
    rw [base64Pad] at h
    simp only [List.mem_cons, List.not_mem_nil, or_false] at h
    rcases h with rfl | rfl <;> rfl
  | case3 b1 b2 =>
    rw [base64Pad] at h
    simp only [List.mem_cons, List.not_mem_nil, or_false] at h
    rw [h]
  | case4 b1 b2 b3 bs ih =>
    rw [base64Pad] at h
    exact ih h

theorem base64Pad_cases (bs : List Nat) :
    base64Pad bs = [] ∨
    (base64Pad bs = ['='] ∧ base64Core bs ≠ []) ∨
    base64Pad bs = ['=', '='] := by
  induction bs using base64Pad.induct with
  | case1 => exact Or.inl rfl
  | case2 b1 => exact Or.inr (Or.inr rfl)
  | case3 b1 b2 =>
    exact Or.inr (Or.inl ⟨rfl, fun h => List.noConfusion h⟩)
  | case4 b1 b2 b3 bs ih =>
    rw [base64Pad, base64Core]
    rcases ih with h | ⟨h1, _⟩ | h
    · exact Or.inl h
    · exact Or.inr (Or.inl ⟨h1, fun hh => List.noConfusion hh⟩)
    · exact Or.inr (Or.inr h)

theorem b64Char_not_ws : ∀ n < 64, ¬ isB64Ws (b64Char n) := by decide

theorem atobStrip_encode (bs : List Nat) (h : ∀ b ∈ bs, b < 256) :
    atobStrip (base64Encode bs) = base64Encode bs := by
  unfold atobStrip
  rw [List.filter_eq_self]
  intro c hc
  rw [base64Encode_core_pad] at hc
  rcases List.mem_append.mp hc with h1 | h2
  · obtain ⟨n, hn, rfl⟩ := base64Core_mem bs h c h1
    have := b64Char_not_ws n hn
    simpa using this
  · have hc2 := base64Pad_mem bs c h2
    rw [hc2]
    decide

theorem head?_ne_pad (l : List Char) (h : ∀ c ∈ l, c ≠ '=') :
    ¬ l.reverse.head? = some '=' := by
  intro hh
  cases hrev : l.reverse with
  | nil => rw [hrev] at hh; exact Option.noConfusion hh
  | cons a r =>
    rw [hrev] at hh
    have ha : a = '=' := by
      have := (Option.some.injEq _ _).mp hh
      exact this
    have hm : a ∈ l.reverse := by rw [hrev]; simp
    rw [List.mem_reverse] at hm
    exact h a hm ha

theorem atobUnpad_core_pad (core pad : List Char)
    (hcore : ∀ c ∈ core, c ≠ '=')
    (hlen : (core ++ pad).length % 4 = 0)
    (hpad : pad = [] ∨ (pad = ['='] ∧ core ≠ []) ∨ pad = ['=', '=']) :
    atobUnpad (core ++ pad) = core := by
  unfold atobUnpad
  rw [if_pos hlen]
  rcases hpad with rfl | ⟨rfl, hne⟩ | rfl
  · rw [List.append_nil]
    rw [if_neg (head?_ne_pad core hcore)]
  · have hrev : (core ++ ['=']).reverse = '=' :: core.reverse := by simp
    rw [hrev]
    rw [if_pos (show ('=' :: core.reverse).head? = some '=' from rfl)]
    dsimp only [List.tail_cons]
    rw [if_neg (by
      intro hh
      exact head?_ne_pad core hcore hh)]
    simp
  · have hrev : (core ++ ['=', '=']).reverse = '=' :: '=' :: core.reverse := by
      simp
    rw [hrev]
    rw [if_pos (show ('=' :: '=' :: core.reverse).head? = some '=' from rfl)]
    dsimp only [List.tail_cons]
    rw [if_pos (show ('=' :: core.reverse).head? = some '=' from rfl)]
    simp

theorem atobUnpad_mem (t : List Char) (c : Char) (hc : c ∈ t)
    (hne : c ≠ '=') : c ∈ atobUnpad t := by
  unfold atobUnpad
  split
  · split
    · rename_i h1
      split
      · rename_i h2
        cases hrev : t.reverse with
        | nil =>
          rw [hrev] at h1
          exact Option.noConfusion h1
        | cons a r1 =>
          rw [hrev] at h1 h2
          cases r1 with
          | nil => exact Option.noConfusion h2
          | cons b r2 =>
            have ha : a = '=' := by simpa using h1
            have hb : b = '=' := by simpa using h2
            have ht : t = r2.reverse ++ [b, a] := by
              have h3 := congrArg List.reverse hrev
              simpa using h3
            rw [ht] at hc
            dsimp only [List.tail_cons]
            rcases List.mem_append.mp hc with h | h
            · exact h
            · exfalso
              simp only [List.mem_cons, List.not_mem_nil, or_false] at h
              rcases h with rfl | rfl
              · exact hne hb
              · exact hne ha
      · rename_i h2
        cases hrev : t.reverse with
        | nil =>
          rw [hrev] at h1
          exact Option.noConfusion h1
        | cons a r1 =>
          rw [hrev] at h1
          have ha : a = '=' := by simpa using h1
          have ht : t = r1.reverse ++ [a] := by
            have h3 := congrArg List.reverse hrev
            simpa using h3
          rw [ht] at hc
          dsimp only [List.tail_cons]
          rcases List.mem_append.mp hc with h | h
          · exact h
          · exfalso
            simp only [List.mem_cons, List.not_mem_nil, or_false] at h
            exact hne (h.trans ha)
    · exact hc
  · exact hc

theorem b64Quads_core (bs : List Nat) (h : ∀ b ∈ bs, b < 256) :
    b64Quads (base64Core bs) = some bs := by
  induction bs using base64Core.induct with
  | case1 => rfl
  | case2 b1 =>
    have hb1 : b1 < 256 := h b1 (by simp)
    show b64Quads [b64Char (b1 / 4), b64Char (b1 % 4 * 16)] = _
    rw [b64Quads.eq_def]
    dsimp only
    rw [b64Val_b64Char (b1 / 4) (by omega),
      b64Val_b64Char (b1 % 4 * 16) (by omega)]
    dsimp only
    have e : b1 / 4 * 4 + b1 % 4 * 16 / 16 = b1 := by omega
    rw [e]
  | case3 b1 b2 =>
    have hb1 : b1 < 256 := h b1 (by simp)
    have hb2 : b2 < 256 := h b2 (by simp)
    show b64Quads [b64Char (b1 / 4), b64Char (b1 % 4 * 16 + b2 / 16),
      b64Char (b2 % 16 * 4)] = _
    rw [b64Quads.eq_def]
    dsimp only
    rw [b64Val_b64Char (b1 / 4) (by omega),
      b64Val_b64Char (b1 % 4 * 16 + b2 / 16) (by omega),
      b64Val_b64Char (b2 % 16 * 4) (by omega)]
    dsimp only
    have e1 : b1 / 4 * 4 + (b1 % 4 * 16 + b2 / 16) / 16 = b1 := by omega
    have e2 : (b1 % 4 * 16 + b2 / 16) % 16 * 16 + b2 % 16 * 4 / 4 = b2 := by
      omega
    rw [e1, e2]
  | case4 b1 b2 b3 bs ih =>
    have hb1 : b1 < 256 := h b1 (by simp)
    have hb2 : b2 < 256 := h b2 (by simp)
    have hb3 : b3 < 256 := h b3 (by simp)
    show b64Quads (b64Char (b1 / 4) :: b64Char (b1 % 4 * 16 + b2 / 16) ::
      b64Char (b2 % 16 * 4 + b3 / 64) :: b64Char (b3 % 64) ::
      base64Core bs) = _
    rw [b64Quads.eq_def]
    dsimp only
    rw [b64Val_b64Char (b1 / 4) (by omega),
      b64Val_b64Char (b1 % 4 * 16 + b2 / 16) (by omega),
      b64Val_b64Char (b2 % 16 * 4 + b3 / 64) (by omega),
      b64Val_b64Char (b3 % 64) (by omega)]
    dsimp only
    rw [ih (fun x hx => h x (by simp [hx]))]
    have e1 : b1 / 4 * 4 + (b1 % 4 * 16 + b2 / 16) / 16 = b1 := by omega
    have e2 : (b1 % 4 * 16 + b2 / 16) % 16 * 16 +
        (b2 % 16 * 4 + b3 / 64) / 4 = b2 := by omega
    have e3 : (b2 % 16 * 4 + b3 / 64) % 4 * 64 + b3 % 64 = b3 := by omega
    rw [e1, e2, e3]
    rfl

/-- `atob` inverts `btoa`. -/
theorem atob_base64Encode (bs : List Nat) (h : ∀ b ∈ bs, b < 256) :
    atobDecode (base64Encode bs) = some bs := by
  unfold atobDecode
  rw [atobStrip_encode bs h, base64Encode_core_pad]
  rw [atobUnpad_core_pad (base64Core bs) (base64Pad bs)
    (fun c hc => by
      obtain ⟨n, hn, rfl⟩ := base64Core_mem bs h c hc
      exact b64Char_ne_pad n hn)
    (by rw [← base64Encode_core_pad]; exact base64Encode_len bs)
    (base64Pad_cases bs)]
  exact b64Quads_core bs h

theorem b64Quads_badchar :
    ∀ s : List Char, (∃ c ∈ s, b64Val c = none) → b64Quads s = none := by
  have H : ∀ (n : Nat) (s : List Char), s.length ≤ n →
      (∃ c ∈ s, b64Val c = none) → b64Quads s = none := by
    intro n
    induction n with
    | zero =>
      rintro s hs ⟨c, hc, _⟩
      have he : s = [] := List.eq_nil_of_length_eq_zero (by omega)
      subst he
      exact absurd hc (List.not_mem_nil c)
    | succ n ih =>
      rintro s hs ⟨c, hc, hv⟩
      rcases s with _ | ⟨c1, _ | ⟨c2, _ | ⟨c3, _ | ⟨c4, rest⟩⟩⟩⟩
      · exact absurd hc (List.not_mem_nil c)
      · rfl
      · rw [b64Quads.eq_def]
        dsimp only
        split
        · exfalso
          simp only [List.mem_cons, List.not_mem_nil, or_false] at hc
          rcases hc with rfl | rfl <;> simp_all
        · rfl
      · rw [b64Quads.eq_def]
        dsimp only
        split
        · exfalso
          simp only [List.mem_cons, List.not_mem_nil, or_false] at hc
          rcases hc with rfl | rfl | rfl <;> simp_all
        · rfl
      · rw [b64Quads.eq_def]
        dsimp only
        split
        · simp only [List.mem_cons] at hc
          rcases hc with rfl | rfl | rfl | rfl | hc
          · simp_all
          · simp_all
          · simp_all
          · simp_all
          · rw [ih rest (by simp at hs; omega) ⟨c, hc, hv⟩]
            rfl
        · rfl
  intro s hex
  exact H s.length s (le_refl _) hex

/-- A character outside the base64 alphabet that is neither padding nor
whitespace makes `atob` throw. -/
theorem atobDecode_badchar (s : List Char) (c : Char) (hc : c ∈ s)
    (hv : b64Val c = none) (hne : c ≠ '=') (hws : ¬ isB64Ws c) :
    atobDecode s = none := by
  unfold atobDecode
  apply b64Quads_badchar
  refine ⟨c, ?_, hv⟩
  apply atobUnpad_mem _ _ _ hne
  unfold atobStrip
  rw [List.mem_filter]
  exact ⟨hc, by simpa using hws⟩

/-! ## Share link and startup load

`makeShareLink` computes `btoa(encodeURIComponent(JSON.stringify(events)))`
and puts it in the `shared` query parameter; the load effect reads it back
with `JSON.parse(decodeURIComponent(atob(shared)))`, fixes missing ids, and
otherwise falls back to local storage. We model the payload and the effect
over the decoded JSON values; the fresh ids produced by `cryptoRandomId`
are modelled as a supply `gen : Nat → List Char` indexed by list position,
and the pair's boolean records whether `console.warn` fired. -/

/-- The `shared` query-parameter payload of `makeShareLink`, for a given
event list (as JSON values). -/
def makeSharePayload (events : List JVal) : List Char :=
  base64Encode ((encodeURIComponentL (printJVal (JVal.jarr events))).map Char.toNat)

/-- `JSON.parse(decodeURIComponent(atob(shared)))`; `none` models a thrown
exception at any of the three stages. -/
def decodeSharedParam (s : List Char) : Option JVal :=
  match atobDecode s with
  | none => none
  | some bytes =>
    match decodeURIComponentL (bytes.map Char.ofNat) with
    | none => none
    | some txt => jsonParseFull txt

/-- First value stored under a key in a JSON object. -/
def objLookup : List (List Char × JVal) → List Char → Option JVal
  | [], _ => none
  | (k, v) :: r, key => if k = key then some v else objLookup r key

/-- `{...e, id: x}`: replace the value of the `id` key in place, or append
the key if absent. -/
def objSetId : List (List Char × JVal) → JVal → List (List Char × JVal)
  | [], v => [(toL "id", v)]
  | (k, w) :: r, v =>
    if k = toL "id" then (k, v) :: r else (k, w) :: objSetId r v

/-- JavaScript truthiness of a JSON value. -/
def jvalTruthy : JVal → Bool
  | JVal.jnull => false
  | JVal.jbool b => b
  | JVal.jnum n => decide (n ≠ 0)
  | JVal.jstr s => decide (s ≠ [])
  | JVal.jarr _ => true
  | JVal.jobj _ => true

/-- `{...e}` for a string: its characters become index-keyed single-char
string properties. -/
def spreadStr : Nat → List Char → List (List Char × JVal)
  | _, [] => []
  | i, c :: r => (natDigits i, JVal.jstr [c]) :: spreadStr (i + 1) r

/-- `{...e}` for an array: its elements become index-keyed properties. -/
def spreadArr : Nat → List JVal → List (List Char × JVal)
  | _, [] => []
  | i, v :: r => (natDigits i, v) :: spreadArr (i + 1) r

/-- One decoded record through `{...e, id: e.id || cryptoRandomId()}`,
run inside the effect's `try` block. On `null`, `e.id` throws a
`TypeError` (`none`), which the catch turns into a warning and a
local-storage fallback. Spreading a boolean or number contributes no own
enumerable properties; spreading a string or array contributes its
index-keyed members; `e.id` is `undefined` (falsy) for all of these, so
they get a fresh id. For objects the spread keeps key order, `id` is
replaced in place or appended, and a truthy `id` value is kept. -/
def fixOne (fresh : List Char) : JVal → Option JVal
  | JVal.jnull => none
  | JVal.jbool _ => some (JVal.jobj [(toL "id", JVal.jstr fresh)])
  | JVal.jnum _ => some (JVal.jobj [(toL "id", JVal.jstr fresh)])
  | JVal.jstr s =>
    some (JVal.jobj (spreadStr 0 s ++ [(toL "id", JVal.jstr fresh)]))
  | JVal.jarr l =>
    some (JVal.jobj (spreadArr 0 l ++ [(toL "id", JVal.jstr fresh)]))
  | JVal.jobj fields =>
    some (match objLookup fields (toL "id") with
      | some w =>
        if jvalTruthy w then JVal.jobj (objSetId fields w)
        else JVal.jobj (objSetId fields (JVal.jstr fresh))
      | none => JVal.jobj (objSetId fields (JVal.jstr fresh)))

/-- `decoded.map(e => ({...e, id: e.id || cryptoRandomId()}))`, drawing
fresh ids from the supply by position; `none` when some element throws
(the whole `map` aborts). -/
def fixIds (gen : Nat → List Char) : Nat → List JVal → Option (List JVal)
  | _, [] => some []
  | i, e :: r =>
    match fixOne (gen i) e with
    | none => none
    | some v => (fixIds gen (i + 1) r).map fun l => v :: l

/-- The local-storage half of the load effect: missing or empty raw value
leaves the initial empty list; a parse failure is ignored likewise; any
parsed value is adopted as the state. -/
def loadStorage (storage : Option (List Char)) : JVal :=
  match storage with
  | none => JVal.jarr []
  | some raw =>
    if raw = [] then JVal.jarr []
    else
      match jsonParseFull raw with
      | some v => v
      | none => JVal.jarr []

/-- The startup load effect: the resulting event-list state together with
whether the malformed-share warning was logged. A decoded array whose
id-fixing pass throws (a `null` element) is caught like a decoding
failure: warning plus local-storage fallback. A decoded non-array value
falls back silently (`Array.isArray` fails without throwing). -/
def load (gen : Nat → List Char) (shared storage : Option (List Char)) :
    JVal × Bool :=
  match shared with
  | none => (loadStorage storage, false)
  | some s =>
    if s = [] then (loadStorage storage, false)
    else
      match decodeSharedParam s with
      | some (JVal.jarr l) =>
        match fixIds gen 0 l with
        | some l2 => (JVal.jarr l2, false)
        | none => (loadStorage storage, true)
      | some _ => (loadStorage storage, false)
      | none => (loadStorage storage, true)

/-- An event list entry as `JSON.stringify` sees it in `saveEvent`'s
insertion order of keys. -/
structure WireEvent where
  id : List Char
  title : List Char
  start : List Char
  duration : Int
  description : List Char
  attendees : List (List Char)
deriving DecidableEq

def eventToJVal (e : WireEvent) : JVal :=
  JVal.jobj [
    (toL "id", JVal.jstr e.id),
    (toL "title", JVal.jstr e.title),
    (toL "start", JVal.jstr e.start),
    (toL "duration", JVal.jnum e.duration),
    (toL "description", JVal.jstr e.description),
    (toL "attendees", JVal.jarr (e.attendees.map JVal.jstr))]

theorem hexDigitU_lt (n : Nat) : (hexDigitU n).toNat < 128 := by
  unfold hexDigitU
  split <;> decide

theorem encodeURIComponent_ascii (s : List Char) :
    ∀ c ∈ encodeURIComponentL s, c.toNat < 128 := by
  intro c hc
  unfold encodeURIComponentL at hc
  rw [List.mem_flatMap] at hc
  obtain ⟨a, _, hca⟩ := hc
  unfold encodeURIComponentChar at hca
  by_cases hu : isUnreservedByte a.toNat
  · rw [if_pos hu] at hca
    rw [List.mem_singleton] at hca
    subst hca
    exact (isUnreservedByte_range _ hu).1
  · rw [if_neg hu, List.mem_flatMap] at hca
    obtain ⟨b, _, hcb⟩ := hca
    simp only [List.mem_cons, List.mem_singleton, List.not_mem_nil, or_false] at hcb
    rcases hcb with h | h | h <;> subst h
    · decide
    · exact hexDigitU_lt (b / 16)
    · exact hexDigitU_lt (b % 16)

theorem base64Encode_eq_nil (bs : List Nat) (h : base64Encode bs = []) :
    bs = [] := by
  match bs with
  | [] => rfl
  | [b1] => simp [base64Encode] at h
  | [b1, b2] => simp [base64Encode] at h
  | b1 :: b2 :: b3 :: rest => simp [base64Encode] at h

theorem encodeURIComponentChar_ne_nil (c : Char) :
    encodeURIComponentChar c ≠ [] := by
  unfold encodeURIComponentChar
  by_cases hu : isUnreservedByte c.toNat
  · rw [if_pos hu]; simp
  · rw [if_neg hu]
    have : ∃ b t, utf8Encode c = b :: t := by
      unfold utf8Encode
      split_ifs <;> exact ⟨_, _, rfl⟩
    obtain ⟨b, t, hb⟩ := this
    rw [hb]
    simp

theorem map_ofNat_toNat (l : List Char) :
    (l.map Char.toNat).map Char.ofNat = l := by
  rw [List.map_map]
  have : Char.ofNat ∘ Char.toNat = id := by
    funext c
    exact Char.ofNat_toNat c
  rw [this, List.map_id]

theorem decodeSharedParam_payload (events : List JVal) :
    decodeSharedParam (makeSharePayload events) = some (JVal.jarr events) := by
  unfold decodeSharedParam makeSharePayload
  rw [atob_base64Encode _ (by
    intro b hb
    rw [List.mem_map] at hb
    obtain ⟨c, hc, hbc⟩ := hb
    have := encodeURIComponent_ascii _ c hc
    omega)]
  dsimp only
  rw [map_ofNat_toNat]
  rw [decodeURIComponent_encode]
  dsimp only
  rw [jsonParseFull_printJVal]

theorem makeSharePayload_ne_nil (events : List JVal) :
    makeSharePayload events ≠ [] := by
  intro h
  have hb := base64Encode_eq_nil _ h
  rw [List.map_eq_nil_iff] at hb
  have hhead : printJVal (JVal.jarr events) =
      '[' :: (printArrItems events ++ [']']) := rfl
  rw [hhead] at hb
  unfold encodeURIComponentL at hb
  rw [List.flatMap_cons] at hb
  exact encodeURIComponentChar_ne_nil '[' (List.append_eq_nil.mp hb).1

/-- `saveEvent`-shaped records with missing (empty) ids receive fresh
ones; others are untouched. -/
def assignIds (gen : Nat → List Char) : Nat → List WireEvent → List WireEvent
  | _, [] => []
  | i, e :: r =>
    (if e.id = [] then { e with id := gen i } else e) :: assignIds gen (i + 1) r

theorem fixOne_eventToJVal (fresh : List Char) (e : WireEvent) :
    fixOne fresh (eventToJVal e) =
      some (eventToJVal (if e.id = [] then { e with id := fresh } else e)) := by
  show fixOne fresh (JVal.jobj _) = _
  rw [fixOne]
  rw [show objLookup [
    (toL "id", JVal.jstr e.id),
    (toL "title", JVal.jstr e.title),
    (toL "start", JVal.jstr e.start),
    (toL "duration", JVal.jnum e.duration),
    (toL "description", JVal.jstr e.description),
    (toL "attendees", JVal.jarr (e.attendees.map JVal.jstr))] (toL "id") =
      some (JVal.jstr e.id) from by rw [objLookup, if_pos rfl]]
  dsimp only
  by_cases hid : e.id = []
  · rw [if_neg (by simp [jvalTruthy, hid])]
    rw [objSetId, if_pos rfl, if_pos hid]
    rfl
  · rw [if_pos (by simp [jvalTruthy, hid])]
    rw [objSetId, if_pos rfl, if_neg hid]
    rfl

theorem fixIds_eventToJVal (gen : Nat → List Char) (events : List WireEvent) :
    ∀ i, fixIds gen i (events.map eventToJVal) =
      some ((assignIds gen i events).map eventToJVal) := by
  induction events with
  | nil => intro i; rfl
  | cons e r ih =>
    intro i
    rw [List.map_cons, fixIds, fixOne_eventToJVal]
    dsimp only
    rw [ih (i + 1)]
    rw [assignIds, List.map_cons]
    rfl

theorem assignIds_id (gen : Nat → List Char) (events : List WireEvent)
    (h : ∀ e ∈ events, e.id ≠ []) : ∀ i, assignIds gen i events = events := by
  induction events with
  | nil => intro i; rfl
  | cons e r ih =>
    intro i
    rw [assignIds, if_neg (h e (by simp)), ih (fun x hx => h x (by simp [hx]))]

theorem assignIds_ne_nil (gen : Nat → List Char) (hg : ∀ j, gen j ≠ [])
    (events : List WireEvent) :
    ∀ i, ∀ e ∈ assignIds gen i events, e.id ≠ [] := by
  induction events with
  | nil =>
    intro i e he
    exact absurd he (List.not_mem_nil e)
  | cons e0 r ih =>
    intro i e he
    rw [assignIds] at he
    rcases List.mem_cons.mp he with h | h
    · subst h
      by_cases hid : e0.id = []
      · rw [if_pos hid]
        exact hg i
      · rw [if_neg hid]
        exact hid
    · exact ih (i + 1) e h

theorem fixIds_null (gen : Nat → List Char) :
    ∀ i (l : List JVal), JVal.jnull ∈ l → fixIds gen i l = none := by
  intro i l
  induction l generalizing i with
  | nil =>
    intro h
    exact absurd h (List.not_mem_nil _)
  | cons e r ih =>
    intro h
    rw [fixIds]
    rcases List.mem_cons.mp h with h1 | h1
    · rw [← h1]
      rfl
    · cases hfo : fixOne (gen i) e with
      | none => rfl
      | some v =>
        dsimp only
        rw [ih (i + 1) h1]
        rfl

/-- C1. For every valid event list (each event having a non-empty id and
the Data-Model fields, serialized with `saveEvent`'s key order), loading a
URL whose `shared` parameter is the `makeShareLink` payload reproduces
exactly the original list (the id-fixing pass changes nothing and local
storage is never consulted), and no warning is logged: the decoding chain
`atob` / `decodeURIComponent` / `JSON.parse` inverts the encoding chain
`JSON.stringify` / `encodeURIComponent` / `btoa` exactly. -/
theorem shareLink_roundtrip (events : List WireEvent)
    (gen : Nat → List Char) (storage : Option (List Char))
    (h : ∀ e ∈ events, e.id ≠ []) :
    load gen (some (makeSharePayload (events.map eventToJVal))) storage =
      (JVal.jarr (events.map eventToJVal), false) := by
  rw [load]
  rw [if_neg (makeSharePayload_ne_nil _)]
  rw [decodeSharedParam_payload]
  dsimp only
  rw [fixIds_eventToJVal gen events 0, assignIds_id gen events h 0]

theorem shareLink_roundtrip_witness :
    (∀ e ∈ ([⟨toL "a1", toL "Sync", toL "2024-03-15T08:00:00.000Z", 30,
        toL "d", [toL "x@y.z"]⟩] : List WireEvent), e.id ≠ []) ∧
    load (fun _ => toL "fresh")
      (some (makeSharePayload
        (([⟨toL "a1", toL "Sync", toL "2024-03-15T08:00:00.000Z", 30,
          toL "d", [toL "x@y.z"]⟩] : List WireEvent).map eventToJVal)))
      (some (toL "[7]")) =
      (JVal.jarr (([⟨toL "a1", toL "Sync", toL "2024-03-15T08:00:00.000Z", 30,
        toL "d", [toL "x@y.z"]⟩] : List WireEvent).map eventToJVal), false) := by
  constructor
  · intro e he
    rw [List.mem_singleton] at he
    subst he
    decide
  · exact shareLink_roundtrip _ _ _ (by
      intro e he
      rw [List.mem_singleton] at he
      subst he
      decide)

/-- Characters that can begin a JSON document (`JSON.parse` skips
whitespace and then expects a value). -/
def jsonStartChar (c : Char) : Prop :=
  c = 'n' ∨ c = 't' ∨ c = 'f' ∨ c = '\"' ∨ c = '[' ∨ c = '\x7b' ∨ c = '-' ∨
  isDigit c = true ∨ c = ' ' ∨ c = '\t' ∨ c = '\n' ∨ c = '\r'

instance (c : Char) : Decidable (jsonStartChar c) := by
  unfold jsonStartChar; infer_instance

theorem jsonParseFull_badStart (c : Char) (r : List Char)
    (h : ¬ jsonStartChar c) : jsonParseFull (c :: r) = none := by
  unfold jsonStartChar at h
  push_neg at h
  obtain ⟨h1, h2, h3, h4, h5, h6, h7, h8, _, _, _, _⟩ := h
  unfold jsonParseFull
  rw [show (c :: r).length + 1 = r.length + 1 + 1 from by simp]
  rw [parseJVal.eq_def]
  dsimp only
  rw [if_neg h1, if_neg h2, if_neg h3, if_neg h4, if_neg h5, if_neg h6,
    if_neg h7, if_neg h8]

/-- C6 counterexample: local-storage data that is valid JSON but not an
event list at all is adopted as the state rather than replaced by the
empty list. With no shared parameter and the persisted raw string `"5"`,
the load effect ends with the state `5` (a number, on which the month view
would then crash), not with the empty event list the claim promises for
corrupt data. -/
theorem load_nonlist_storage_counterexample :
    load (fun _ => toL "x") none (some (toL "5")) = (JVal.jnum 5, false) ∧
    JVal.jnum 5 ≠ JVal.jarr [] := by
  constructor
  · rfl
  · intro h
    exact JVal.noConfusion h

/-- C6 (amended): on startup, a shared parameter carrying the encoded
snapshot of a `saveEvent`-shaped record list becomes the entire event
list — records with missing (empty) ids get fresh ones, the others are
kept verbatim — and local storage does not influence the result; after
id-fixing every record has a non-empty id. A decoded array containing
`null` makes the id-fixing pass throw inside the `try` block: the
parameter is discarded with a console warning and the store falls back to
local storage, exactly as when the parameter fails to decode (witnessed
here by any parameter containing a character that base64 rejects). With
no shared parameter the storage path is taken without warning; there,
missing storage, an empty raw string, or raw data that cannot begin a
JSON document yield the empty list (but a parseable non-list value is
adopted as-is — see the counterexample). The load effect is a total
function: it never throws to its caller. -/
theorem load_spec (gen : Nat → List Char) :
    (∀ (events : List WireEvent) storage,
      load gen (some (makeSharePayload (events.map eventToJVal))) storage =
        (JVal.jarr ((assignIds gen 0 events).map eventToJVal), false)) ∧
    (∀ i (events : List WireEvent), (∀ j, gen j ≠ []) →
      ∀ e ∈ assignIds gen i events, e.id ≠ []) ∧
    (∀ storage (l : List JVal), JVal.jnull ∈ l →
      load gen (some (makeSharePayload l)) storage =
        (loadStorage storage, true)) ∧
    (∀ s storage, (∃ c ∈ s, b64Val c = none ∧ c ≠ '=' ∧ ¬ isB64Ws c) →
      load gen (some s) storage = (loadStorage storage, true)) ∧
    (∀ storage, load gen none storage = (loadStorage storage, false)) ∧
    (loadStorage none = JVal.jarr []) ∧
    (∀ c r, ¬ jsonStartChar c → loadStorage (some (c :: r)) = JVal.jarr []) ∧
    (loadStorage (some []) = JVal.jarr []) := by
  refine ⟨?_, ?_, ?_, ?_, fun _ => rfl, rfl, ?_, rfl⟩
  · intro events storage
    rw [load.eq_def]
    dsimp only
    rw [if_neg (makeSharePayload_ne_nil _), decodeSharedParam_payload]
    dsimp only
    rw [fixIds_eventToJVal gen events 0]
  · intro i events hg
    exact assignIds_ne_nil gen hg events i
  · intro storage l hl
    rw [load.eq_def]
    dsimp only
    rw [if_neg (makeSharePayload_ne_nil _), decodeSharedParam_payload]
    dsimp only
    rw [fixIds_null gen 0 l hl]
  · rintro s storage ⟨c, hc, hv, hne, hws⟩
    have hsne : s ≠ [] := by
      intro h
      subst h
      exact absurd hc (List.not_mem_nil c)
    have hdec : decodeSharedParam s = none := by
      unfold decodeSharedParam
      rw [atobDecode_badchar s c hc hv hne hws]
    rw [load.eq_def]
    dsimp only
    rw [if_neg hsne, hdec]
  · intro c r h
    rw [loadStorage.eq_def]
    dsimp only
    rw [if_neg (List.cons_ne_nil c r), jsonParseFull_badStart c r h]

theorem load_spec_witness :
    (load (fun _ => toL "x")
        (some (makeSharePayload
          (([⟨toL "", toL "T", toL "S", 30, [], []⟩] : List WireEvent).map
            eventToJVal)))
        (some (toL "[7]")) =
      (JVal.jarr ((assignIds (fun _ => toL "x") 0
          ([⟨toL "", toL "T", toL "S", 30, [], []⟩] : List WireEvent)).map
        eventToJVal), false)) ∧
    ((toL "x" ≠ ([] : List Char)) ∧
      ∀ e ∈ assignIds (fun _ => toL "x") 0
        ([⟨toL "", toL "T", toL "S", 30, [], []⟩] : List WireEvent),
        e.id ≠ []) ∧
    (JVal.jnull ∈ [JVal.jnull] ∧
      load (fun _ => toL "x") (some (makeSharePayload [JVal.jnull]))
        (some (toL "[7]")) = (loadStorage (some (toL "[7]")), true)) ∧
    ((∃ c ∈ toL "*", b64Val c = none ∧ c ≠ '=' ∧ ¬ isB64Ws c) ∧
      load (fun _ => toL "x") (some (toL "*")) (some (toL "[7]")) =
        (loadStorage (some (toL "[7]")), true)) ∧
    (¬ jsonStartChar 'x' ∧
      loadStorage (some ('x' :: toL "5")) = JVal.jarr []) := by
  refine ⟨?_, ⟨by decide, ?_⟩, ⟨List.mem_singleton.mpr rfl, ?_⟩,
    ⟨⟨'*', by decide, by decide, by decide, by decide⟩, ?_⟩, ⟨by decide, ?_⟩⟩
  · exact (load_spec (fun _ => toL "x")).1 _ _
  · exact (load_spec (fun _ => toL "x")).2.1 0 _ (fun _ => by decide)
  · exact (load_spec (fun _ => toL "x")).2.2.1 _ _ (List.mem_singleton.mpr rfl)
  · exact (load_spec (fun _ => toL "x")).2.2.2.1 _ _
      ⟨'*', by decide, by decide, by decide, by decide⟩
  · exact (load_spec (fun _ => toL "x")).2.2.2.2.2.2.1 'x' (toL "5") (by decide)

end Kalendar
